import Mathlib

/-!
# A shallow embedding of the dvim editing core

This file embeds the text-storage and editor state machine of the dvim
editor (src/buffer/mod.rs, src/editor/*.rs) in Lean 4 and proves the
frozen claims about it.

Modelling conventions:

* The ropey `Rope` backing a `Buffer` is modelled by its character
  content, a `List Char`.  Line breaks are `'\n'` (the only terminator
  the editor itself ever inserts); `Buffer.line` additionally strips a
  trailing `'\r'` exactly as the source does.  Ropey's `len_lines` is
  the number of `'\n'` characters plus one, which equals the length of
  `splitOnNl`.
* String lengths are character counts.  The Rust code uses byte lengths
  in `line_len`; the two coincide on ASCII text, and the embedding
  models that scalar-faithful fragment.
* `usize` arithmetic that Rust checks (panicking on underflow in debug
  builds) is modelled with `sub?`, returning `none` where Rust would
  underflow.  Subtractions the source guards, or writes with
  `saturating_sub`, are modelled with truncated `Nat` subtraction,
  which agrees with the source under the guard.
* `Buffer.write` touches only the file system, so commands model its
  outcome by a boolean oracle `writeOk`.
* Ropey's `line_to_char` requires `line ≤ len_lines`; the model extends
  it totally (returning the text length beyond the end).  All callers
  in the source stay in range.
-/

set_option linter.unusedVariables false

namespace Dvim

/-- Checked subtraction: `some (a - b)` when `b ≤ a`, otherwise `none`
(the case where Rust `usize` subtraction underflows). -/
def sub? (a b : Nat) : Option Nat :=
  if b ≤ a then some (a - b) else none

/-- Insert a character at index `i` (Rust `Rope::insert_char`). -/
def insertAt (t : List Char) (i : Nat) (c : Char) : List Char :=
  t.take i ++ c :: t.drop i

/-- Remove the half-open character range `[a, b)` (Rust `Rope::remove`). -/
def removeRange (t : List Char) (a b : Nat) : List Char :=
  t.take a ++ t.drop b

/-- Length of the maximal prefix satisfying `p`. -/
def countWhile (p : Char → Bool) : List Char → Nat
  | [] => 0
  | c :: rest => if p c then countWhile p rest + 1 else 0

/-- Result of the loop `while i < len && p chars.(i) do i += 1`:
the first index `≥ i` whose character fails `p`, capped at the length. -/
def skipWhile (p : Char → Bool) (chars : List Char) (i : Nat) : Nat :=
  i + countWhile p (chars.drop i)

/-- Result of the loop `while col > 0 && p chars.(col) do col -= 1`. -/
def skipBackWhile (p : Char → Bool) (chars : List Char) : Nat → Nat
  | 0 => 0
  | col + 1 => if p (chars.getD (col + 1) ' ') then skipBackWhile p chars col else col + 1

/-- Rust `str::trim_end_matches (a : char)`: remove every trailing `a`. -/
def stripTrail (a : Char) (s : List Char) : List Char :=
  (s.reverse.dropWhile (fun c => c = a)).reverse

/-- Split a text into its lines, one more segment than there are `'\n'`
characters; the segments carry no terminator.  This is the line
structure ropey exposes through `len_lines` / `line`. -/
def splitOnNl : List Char → List (List Char)
  | [] => [[]]
  | c :: rest =>
    match splitOnNl rest with
    | [] => [[]]
    | s :: ss => if c = '\n' then [] :: s :: ss else (c :: s) :: ss

/-- Join lines with `'\n'`; left inverse of `splitOnNl`. -/
def joinNl : List (List Char) → List Char
  | [] => []
  | [s] => s
  | s :: ss => s ++ '\n' :: joinNl ss

/-- Ropey `Rope::line_to_char`: index of the first character of the
given line (totalised: the text length once past the last line). -/
def line_to_char : List Char → Nat → Nat
  | _, 0 => 0
  | [], _ + 1 => 0
  | c :: rest, l + 1 =>
    if c = '\n' then 1 + line_to_char rest l else 1 + line_to_char rest (l + 1)

namespace Buffer

/-- `Buffer::line_count` (ropey `len_lines`). -/
def line_count (t : List Char) : Nat :=
  (splitOnNl t).length

/-- `Buffer::line`: the text of line `idx` with trailing newline
characters stripped; `none` past the end. -/
def line (t : List Char) (idx : Nat) : Option (List Char) :=
  if idx ≥ line_count t then none
  else some (stripTrail '\r' (stripTrail '\n' ((splitOnNl t).getD idx [])))

/-- `Buffer::line_len`. -/
def line_len (t : List Char) (idx : Nat) : Nat :=
  ((line t idx).map List.length).getD 0

/-- `Buffer::insert_char`. -/
def insert_char (t : List Char) (line col : Nat) (ch : Char) : List Char :=
  insertAt t (line_to_char t line + col) ch

/-- `Buffer::insert_newline`. -/
def insert_newline (t : List Char) (line col : Nat) : List Char :=
  insertAt t (line_to_char t line + col) '\n'

/-- `Buffer::delete_line`: remove line `line` with its terminator,
unless that would remove all content. -/
def delete_line (t : List Char) (line : Nat) : List Char :=
  let count := line_count t
  if line ≥ count then t
  else
    let start := line_to_char t line
    let stop := if line + 1 < count then line_to_char t (line + 1) else t.length
    if stop - start ≥ t.length then t
    else removeRange t start stop

/-- `Buffer::delete_char_at`. -/
def delete_char_at (t : List Char) (line col : Nat) : List Char :=
  let ll := line_len t line
  if ll = 0 ∨ col ≥ ll then t
  else removeRange t (line_to_char t line + col) (line_to_char t line + col + 1)

/-- `Buffer::delete_char_back`, returning the text together with the
new cursor.  `none` marks the `usize` underflow `line_to_char - 1`. -/
def delete_char_back (t : List Char) (line col : Nat) :
    Option (List Char × Nat × Nat) :=
  if col = 0 then
    if line = 0 then some (t, 0, 0)
    else
      let prev_line_len := line_len t (line - 1)
      match sub? (line_to_char t line) 1 with
      | some idx => some (removeRange t idx (idx + 1), line - 1, prev_line_len)
      | none => none
  else
    some (removeRange t (line_to_char t line + col - 1) (line_to_char t line + col),
          line, col - 1)

end Buffer

/-- `Mode` (src/mode/mod.rs together with the `Command` variant the
editor modules in src/editor/ dispatch on). -/
inductive Mode where
  | normal
  | insert
  | command
deriving DecidableEq, Repr

/-- The key identities handle_key matches on (crossterm `KeyCode`);
`other` stands for every unmatched variant. -/
inductive KeyCode where
  | char (c : Char)
  | esc
  | enter
  | backspace
  | left
  | right
  | up
  | down
  | other
deriving DecidableEq, Repr

/-- A key event: a key identity plus the control-modifier flag. -/
structure KeyEvent where
  code : KeyCode
  ctrl : Bool
deriving DecidableEq, Repr

/-- `Editor` (src/editor/mod.rs), with the buffer replaced by its rope
content; the backing file name plays no role in the claims. -/
structure Editor where
  text : List Char
  cursor_row : Nat
  cursor_col : Nat
  scroll_offset : Nat
  mode : Mode
  running : Bool
  pending_g : Bool
  pending_d : Bool
  command_buffer : String
deriving DecidableEq, Repr

namespace Editor

/-- `Editor::new`. -/
def new (t : List Char) : Editor :=
  { text := t, cursor_row := 0, cursor_col := 0, scroll_offset := 0,
    mode := Mode.normal, running := true, pending_g := false,
    pending_d := false, command_buffer := "" }

/-- `Editor::quit`. -/
def quit (e : Editor) : Editor :=
  { e with running := false }

/-- `Editor::max_row`: the last valid cursor row, skipping the trailing
empty line ropey adds (`count.saturating_sub(2)`). -/
def max_row (e : Editor) : Nat :=
  let count := Buffer.line_count e.text
  if count = 0 then 0 else count - 2

/-- `Editor::clamp_cursor_col`. -/
def clamp_cursor_col (e : Editor) : Editor :=
  let ll := Buffer.line_len e.text e.cursor_row
  if e.mode = Mode.insert then { e with cursor_col := min e.cursor_col ll }
  else if ll = 0 then { e with cursor_col := 0 }
  else { e with cursor_col := min e.cursor_col (ll - 1) }

/-! Simple movement (src/editor/movement.rs). -/

/-- `Editor::move_left`. -/
def move_left (e : Editor) : Editor :=
  { e with cursor_col := e.cursor_col - 1 }

/-- `Editor::move_down`. -/
def move_down (e : Editor) : Editor :=
  let e := if e.cursor_row < e.max_row then { e with cursor_row := e.cursor_row + 1 } else e
  e.clamp_cursor_col

/-- `Editor::move_up`. -/
def move_up (e : Editor) : Editor :=
  ({ e with cursor_row := e.cursor_row - 1 }).clamp_cursor_col

/-- `Editor::move_right`. -/
def move_right (e : Editor) : Editor :=
  let ll := Buffer.line_len e.text e.cursor_row
  let max_col := if e.mode = Mode.insert then ll else if ll > 0 then ll - 1 else 0
  if e.cursor_col < max_col then { e with cursor_col := e.cursor_col + 1 } else e

/-- `Editor::goto_top`. -/
def goto_top (e : Editor) : Editor :=
  ({ e with cursor_row := 0 }).clamp_cursor_col

/-- `Editor::goto_bottom`. -/
def goto_bottom (e : Editor) : Editor :=
  ({ e with cursor_row := e.max_row }).clamp_cursor_col

/-- `Editor::goto_viewport_top`. -/
def goto_viewport_top (e : Editor) : Editor :=
  ({ e with cursor_row := e.scroll_offset }).clamp_cursor_col

/-- `Editor::goto_viewport_middle`; `none` marks the underflow of
`scroll_offset + viewport_height - 1`. -/
def goto_viewport_middle (e : Editor) (vh : Nat) : Option Editor :=
  let top := e.scroll_offset
  match sub? (e.scroll_offset + vh) 1 with
  | none => none
  | some b =>
    let bottom := min b e.max_row
    some ({ e with cursor_row := (top + bottom) / 2 }).clamp_cursor_col

/-- `Editor::goto_viewport_bottom`; `none` marks the underflow of
`scroll_offset + viewport_height - 1`. -/
def goto_viewport_bottom (e : Editor) (vh : Nat) : Option Editor :=
  match sub? (e.scroll_offset + vh) 1 with
  | none => none
  | some b =>
    some ({ e with cursor_row := min b e.max_row }).clamp_cursor_col

/-- `Editor::scroll_half_page_down`. -/
def scroll_half_page_down (e : Editor) (vh : Nat) : Editor :=
  ({ e with cursor_row := min (e.cursor_row + vh / 2) e.max_row }).clamp_cursor_col

/-- `Editor::scroll_half_page_up` (`saturating_sub`). -/
def scroll_half_page_up (e : Editor) (vh : Nat) : Editor :=
  ({ e with cursor_row := e.cursor_row - vh / 2 }).clamp_cursor_col

/-- `Editor::adjust_scroll`; the subtraction `cursor_row -
viewport_height` is checked, `none` marking an underflow. -/
def adjust_scroll (e : Editor) (vh : Nat) : Option Editor :=
  let e1 := if e.cursor_row < e.scroll_offset then { e with scroll_offset := e.cursor_row } else e
  if e1.cursor_row ≥ e1.scroll_offset + vh then
    match sub? e1.cursor_row vh with
    | none => none
    | some d => some { e1 with scroll_offset := d + 1 }
  else some e1

end Editor

/-- `Editor::char_class` (movement.rs): 0 = whitespace, 1 = word
(alphanumeric or underscore), 2 = punctuation.  `Char.isWhitespace` /
`Char.isAlphanum` model Rust's `char::is_whitespace` /
`char::is_alphanumeric` on the ASCII fragment. -/
def char_class (c : Char) : Nat :=
  if c.isWhitespace then 0
  else if c.isAlphanum ∨ c = '_' then 1
  else 2

/-- The loop `while col > 0 && char_class chars.(col-1) == cls do col -= 1`
backing up to the start of a class run (movement.rs, word motions). -/
def backRunStart (cls : Nat) (chars : List Char) : Nat → Nat
  | 0 => 0
  | col + 1 =>
    if char_class (chars.getD col ' ') = cls then backRunStart cls chars col else col + 1

/-- The loop `while col + 1 < len && char_class chars.(col+1) == cls do
col += 1` advancing to the end of a class run (movement.rs, `e`). -/
def endOfRun (cls : Nat) (chars : List Char) (col : Nat) : Nat :=
  col + countWhile (fun c => char_class c = cls) (chars.drop (col + 1))

namespace Editor

/-- `Editor::move_word_forward` (vim `w`). -/
def move_word_forward (e : Editor) : Editor :=
  let maxRow := e.max_row
  let row := e.cursor_row
  let col := e.cursor_col
  match Buffer.line e.text row with
  | none => e
  | some chars =>
    if chars.length = 0 ∨ col ≥ chars.length then
      if row < maxRow then
        let e1 := { e with cursor_row := row + 1, cursor_col := 0 }
        match Buffer.line e.text (row + 1) with
        | some nchars =>
          let nc := skipWhile (fun c => c.isWhitespace) nchars 0
          if nc < nchars.length then { e1 with cursor_col := nc } else e1
        | none => e1
      else e
    else
      let start_class := char_class (chars.getD col ' ')
      let col1 := if start_class ≠ 0
        then skipWhile (fun c => char_class c = start_class) chars col
        else col
      let col2 := skipWhile (fun c => c.isWhitespace) chars col1
      if col2 ≥ chars.length then
        if row + 1 > maxRow then
          { e with cursor_col := if chars.length = 0 then 0 else chars.length - 1 }
        else
          match Buffer.line e.text (row + 1) with
          | some nchars =>
            let c3 := skipWhile (fun c => c.isWhitespace) nchars 0
            let c4 := if c3 ≥ nchars.length then 0 else c3
            { e with cursor_row := row + 1, cursor_col := c4 }
          | none => { e with cursor_row := row + 1, cursor_col := 0 }
      else { e with cursor_row := row, cursor_col := col2 }

/-- `Editor::move_word_backward` (vim `b`).  The source indexes its
character vectors unconditionally in two places, and `none` marks those
out-of-bounds panics: `chars[col]` in the backward whitespace scan
(movement.rs:204/207, out of bounds when the incoming cursor column
exceeds the line), and `pchars[col]` on the previous line
(movement.rs:219, out of bounds exactly when that previous line is
empty, since then `col = 0` and `pchars` has no element). -/
def move_word_backward (e : Editor) : Option Editor :=
  let row0 := e.cursor_row
  let col0 := e.cursor_col
  if col0 = 0 ∧ row0 = 0 then some e
  else
    let row := if col0 = 0 then row0 - 1 else row0
    let col :=
      if col0 = 0 then
        let ll := Buffer.line_len e.text (row0 - 1)
        if ll > 0 then ll - 1 else 0
      else col0 - 1
    match Buffer.line e.text row with
    | none => some e
    | some chars =>
      if chars.length = 0 then some { e with cursor_row := row, cursor_col := 0 }
      else if col ≥ chars.length then none
      else
        let col := skipBackWhile (fun c => c.isWhitespace) chars col
        if (chars.getD col ' ').isWhitespace then
          if row > 0 then
            let row' := row - 1
            let prev_len := Buffer.line_len e.text row'
            let colp := if prev_len > 0 then prev_len - 1 else 0
            match Buffer.line e.text row' with
            | some pchars =>
              if pchars.length = 0 then none
              else
                let colp := skipBackWhile (fun c => c.isWhitespace) pchars colp
                let cls := char_class (pchars.getD colp ' ')
                some { e with cursor_row := row', cursor_col := backRunStart cls pchars colp }
            | none => some { e with cursor_row := row', cursor_col := colp }
          else some { e with cursor_row := row, cursor_col := col }
        else
          let cls := char_class (chars.getD col ' ')
          some { e with cursor_row := row, cursor_col := backRunStart cls chars col }

/-- The tail of `Editor::move_word_end` that continues at the start of
line `row`: skip leading whitespace and move to the end of that
character's class run, or column 0 when the line has no content. -/
def word_end_on_line (e : Editor) (row : Nat) : Editor :=
  match Buffer.line e.text row with
  | some nchars =>
    let c1 := skipWhile (fun c => c.isWhitespace) nchars 0
    if c1 < nchars.length then
      let cls := char_class (nchars.getD c1 ' ')
      { e with cursor_row := row, cursor_col := endOfRun cls nchars c1 }
    else { e with cursor_row := row, cursor_col := 0 }
  | none => { e with cursor_row := row, cursor_col := 0 }

/-- `Editor::move_word_end` (vim `e`). -/
def move_word_end (e : Editor) : Editor :=
  let maxRow := e.max_row
  let row := e.cursor_row
  let col := e.cursor_col
  match Buffer.line e.text row with
  | none => e
  | some chars =>
    if chars.length = 0 then
      if row < maxRow then e.word_end_on_line (row + 1) else e
    else
      let col1 := skipWhile (fun c => c.isWhitespace) chars (col + 1)
      if col1 < chars.length then
        let cls := char_class (chars.getD col1 ' ')
        { e with cursor_row := row, cursor_col := endOfRun cls chars col1 }
      else
        if row < maxRow then e.word_end_on_line (row + 1)
        else { e with cursor_col := chars.length - 1 }

/-- `Editor::goto_line_start` (vim `0`). -/
def goto_line_start (e : Editor) : Editor :=
  { e with cursor_col := 0 }

/-- `Editor::goto_line_end` (vim `$`). -/
def goto_line_end (e : Editor) : Editor :=
  let ll := Buffer.line_len e.text e.cursor_row
  if ll = 0 then { e with cursor_col := 0 } else { e with cursor_col := ll - 1 }

/-- `Editor::goto_first_non_blank` (vim `^`). -/
def goto_first_non_blank (e : Editor) : Editor :=
  match Buffer.line e.text e.cursor_row with
  | some chars =>
    let col := skipWhile (fun c => c.isWhitespace) chars 0
    { e with cursor_col := if col ≥ chars.length then 0 else col }
  | none => { e with cursor_col := 0 }

/-! Insert mode (src/editor/insert.rs). -/

/-- `Editor::enter_insert_mode` (`i`). -/
def enter_insert_mode (e : Editor) : Editor :=
  { e with mode := Mode.insert }

/-- `Editor::enter_insert_mode_append` (`a`). -/
def enter_insert_mode_append (e : Editor) : Editor :=
  let ll := Buffer.line_len e.text e.cursor_row
  let e := if ll > 0 then { e with cursor_col := e.cursor_col + 1 } else e
  { e with mode := Mode.insert }

/-- `Editor::enter_insert_mode_open_below` (`o`). -/
def enter_insert_mode_open_below (e : Editor) : Editor :=
  let ll := Buffer.line_len e.text e.cursor_row
  { e with text := Buffer.insert_newline e.text e.cursor_row ll,
           cursor_row := e.cursor_row + 1, cursor_col := 0, mode := Mode.insert }

/-- `Editor::enter_insert_mode_open_above` (`O`). -/
def enter_insert_mode_open_above (e : Editor) : Editor :=
  { e with text := Buffer.insert_newline e.text e.cursor_row 0,
           cursor_col := 0, mode := Mode.insert }

/-- `Editor::exit_insert_mode` (`Esc`). -/
def exit_insert_mode (e : Editor) : Editor :=
  let e := { e with mode := Mode.normal }
  let e := if e.cursor_col > 0 then { e with cursor_col := e.cursor_col - 1 } else e
  e.clamp_cursor_col

/-- `Editor::insert_char`. -/
def insert_char (e : Editor) (ch : Char) : Editor :=
  { e with text := Buffer.insert_char e.text e.cursor_row e.cursor_col ch,
           cursor_col := e.cursor_col + 1 }

/-- `Editor::insert_newline`. -/
def insert_newline (e : Editor) : Editor :=
  { e with text := Buffer.insert_newline e.text e.cursor_row e.cursor_col,
           cursor_row := e.cursor_row + 1, cursor_col := 0 }

/-- `Editor::delete_char_back` (insert-mode `Backspace`). -/
def delete_char_back (e : Editor) : Option Editor :=
  match Buffer.delete_char_back e.text e.cursor_row e.cursor_col with
  | some (t, r, c) => some { e with text := t, cursor_row := r, cursor_col := c }
  | none => none

end Editor

/-- Apply `f` to `a` `n` times (the Rust `for _ in 0..n` deletion loops). -/
def applyN {α : Type} (f : α → α) : Nat → α → α
  | 0, a => a
  | n + 1, a => applyN f n (f a)

/-- The character classifier local to `Editor::delete_word`
(deletion.rs): 0 = word, 1 = punctuation, 2 = whitespace — an
independent implementation of the 3-way classification. -/
def classify (c : Char) : Nat :=
  if c.isAlphanum ∨ c = '_' then 0
  else if c.isWhitespace then 2
  else 1

namespace Editor

/-! Normal-mode deletion (src/editor/deletion.rs). -/

/-- `Editor::delete_line` (`dd`). -/
def delete_line (e : Editor) : Editor :=
  let e := { e with text := Buffer.delete_line e.text e.cursor_row }
  let m := e.max_row
  let e := if e.cursor_row > m then { e with cursor_row := m } else e
  e.clamp_cursor_col

/-- `Editor::delete_char_at_cursor` (`x`). -/
def delete_char_at_cursor (e : Editor) : Editor :=
  if Buffer.line_len e.text e.cursor_row = 0 then e
  else
    ({ e with text := Buffer.delete_char_at e.text e.cursor_row e.cursor_col }).clamp_cursor_col

/-- `Editor::delete_to_end_of_line` (`D`); the count `line_len -
cursor_col` is checked subtraction, `none` marking an underflow. -/
def delete_to_end_of_line (e : Editor) : Option Editor :=
  let ll := Buffer.line_len e.text e.cursor_row
  if ll = 0 then some e
  else
    match sub? ll e.cursor_col with
    | none => none
    | some count =>
      let t := applyN (fun t => Buffer.delete_char_at t e.cursor_row e.cursor_col) count e.text
      some ({ e with text := t }).clamp_cursor_col

/-- `Editor::delete_word` (`dw`).  The count `pos - start` is written
with truncated subtraction; `pos` starts at `start` and is only ever
increased, so the two agree. -/
def delete_word (e : Editor) : Editor :=
  match Buffer.line e.text e.cursor_row with
  | none => e
  | some chars =>
    let len := chars.length
    if e.cursor_col ≥ len then e
    else
      let start := e.cursor_col
      let start_class := classify (chars.getD start ' ')
      let pos := skipWhile (fun c => classify c = start_class) chars start
      let pos := if start_class ≠ 2 then skipWhile (fun c => c.isWhitespace) chars pos else pos
      let count := pos - start
      let t := applyN (fun t => Buffer.delete_char_at t e.cursor_row e.cursor_col) count e.text
      ({ e with text := t }).clamp_cursor_col

/-! Command mode (src/editor/command.rs). -/

/-- `Editor::enter_command_mode`. -/
def enter_command_mode (e : Editor) : Editor :=
  { e with mode := Mode.command, command_buffer := "" }

/-- `Editor::exit_command_mode`. -/
def exit_command_mode (e : Editor) : Editor :=
  { e with mode := Mode.normal, command_buffer := "" }

/-- `Editor::command_push`. -/
def command_push (e : Editor) (ch : Char) : Editor :=
  { e with command_buffer := e.command_buffer.push ch }

/-- `Editor::command_pop`. -/
def command_pop (e : Editor) : Editor :=
  let e := { e with command_buffer := e.command_buffer.dropRight 1 }
  if e.command_buffer.isEmpty then e.exit_command_mode else e

end Editor

/-- Rust `str::trim()`: remove leading and trailing whitespace
(`Char.isWhitespace` models `char::is_whitespace` on the ASCII
fragment).  Written over the character list so that it evaluates. -/
def rustTrim (s : String) : String :=
  String.mk
    (((s.toList.dropWhile (fun c => c.isWhitespace)).reverse.dropWhile
      (fun c => c.isWhitespace)).reverse)

/-- Rust `str::parse::<usize>()`: an optional leading `'+'`, one or
more ASCII digits, value below `2 ^ 64` (usize on a 64-bit target);
everything else is a parse error. -/
def parse_usize (s : String) : Option Nat :=
  let cs := s.toList
  let ds := match cs with
    | '+' :: rest => rest
    | _ => cs
  if ds.isEmpty then none
  else if ds.all (fun c => c.isDigit) then
    let n := ds.foldl (fun acc c => acc * 10 + (c.toNat - '0'.toNat)) 0
    if n < 2 ^ 64 then some n else none
  else none

namespace Editor

/-- `Editor::execute_command`.  `writeOk` is the outcome the file
system would give `Buffer::write`; the returned boolean is `true` when
the Rust function returns `Ok(())`. -/
def execute_command (e : Editor) (writeOk : Bool) : Editor × Bool :=
  let cmd := rustTrim e.command_buffer
  let e := e.exit_command_mode
  match parse_usize cmd with
  | some n =>
    let target := if n = 0 then 0 else min (n - 1) e.max_row
    (({ e with cursor_row := target }).clamp_cursor_col, true)
  | none =>
    if cmd = "w" then (e, writeOk)
    else if cmd = "q" then (e.quit, true)
    else if cmd = "wq" then (if writeOk then (e.quit, true) else (e, false))
    else if cmd = "w!" then (e, true)
    else if cmd = "q!" then (e.quit, true)
    else if cmd = "wq!" then (e.quit, true)
    else (e, true)

/-! The key dispatcher (src/editor/keymap.rs). -/

/-- `handle_normal_key`. -/
def handle_normal_key (e : Editor) (k : KeyEvent) (vh : Nat) : Option Editor :=
  if e.pending_d then
    let e := { e with pending_d := false }
    match k.code with
    | KeyCode.char c =>
      if c = 'd' then some e.delete_line
      else if c = 'w' then some e.delete_word
      else some e
    | _ => some e
  else if e.pending_g then
    let e := { e with pending_g := false }
    if k.code = KeyCode.char 'g' then some e.goto_top else some e
  else
    match k.code with
    | KeyCode.char c =>
      if c = ':' then some e.enter_command_mode
      else if c = 'i' then some e.enter_insert_mode
      else if c = 'a' then some e.enter_insert_mode_append
      else if c = 'o' then some e.enter_insert_mode_open_below
      else if c = 'O' then some e.enter_insert_mode_open_above
      else if c = 'h' then some e.move_left
      else if c = 'j' then some e.move_down
      else if c = 'k' then some e.move_up
      else if c = 'l' then some e.move_right
      else if c = 'g' then some { e with pending_g := true }
      else if c = 'G' then some e.goto_bottom
      else if c = 'H' then some e.goto_viewport_top
      else if c = 'M' then e.goto_viewport_middle vh
      else if c = 'L' then e.goto_viewport_bottom vh
      else if c = 'd' then
        if k.ctrl then some (e.scroll_half_page_down vh) else some { e with pending_d := true }
      else if c = 'u' then
        if k.ctrl then some (e.scroll_half_page_up vh) else some e
      else if c = 'w' then some e.move_word_forward
      else if c = 'b' then e.move_word_backward
      else if c = 'e' then some e.move_word_end
      else if c = '0' then some e.goto_line_start
      else if c = '$' then some e.goto_line_end
      else if c = '^' then some e.goto_first_non_blank
      else if c = 'D' then e.delete_to_end_of_line
      else if c = 'x' then some e.delete_char_at_cursor
      else some e
    | KeyCode.left => some e.move_left
    | KeyCode.down => some e.move_down
    | KeyCode.up => some e.move_up
    | KeyCode.right => some e.move_right
    | _ => some e

/-- `handle_command_key`; the result of `execute_command` is discarded
(`let _ = …`). -/
def handle_command_key (e : Editor) (k : KeyEvent) (writeOk : Bool) : Editor :=
  match k.code with
  | KeyCode.esc => e.exit_command_mode
  | KeyCode.enter => (e.execute_command writeOk).1
  | KeyCode.backspace => e.command_pop
  | KeyCode.char c => e.command_push c
  | _ => e

/-- `handle_insert_key`. -/
def handle_insert_key (e : Editor) (k : KeyEvent) : Option Editor :=
  match k.code with
  | KeyCode.esc => some e.exit_insert_mode
  | KeyCode.enter => some e.insert_newline
  | KeyCode.backspace => e.delete_char_back
  | KeyCode.left => some e.move_left
  | KeyCode.down => some e.move_down
  | KeyCode.up => some e.move_up
  | KeyCode.right => some e.move_right
  | KeyCode.char c => some (e.insert_char c)
  | _ => some e

/-- `handle_key` (keymap.rs): dispatch on the current mode. -/
def handle_key (e : Editor) (k : KeyEvent) (writeOk : Bool) (vh : Nat) : Option Editor :=
  match e.mode with
  | Mode.normal => e.handle_normal_key k vh
  | Mode.insert => e.handle_insert_key k
  | Mode.command => some (e.handle_command_key k writeOk)

end Editor

/-! ## Library lemmas: loops, slicing, line structure -/

theorem countWhile_le_length (p : Char → Bool) (l : List Char) :
    countWhile p l ≤ l.length := by
  induction l with
  | nil => simp [countWhile]
  | cons c rest ih =>
    simp only [countWhile, List.length_cons]
    split <;> omega

theorem le_skipWhile (p : Char → Bool) (chars : List Char) (i : Nat) :
    i ≤ skipWhile p chars i := by
  simp [skipWhile]

theorem skipWhile_le_length (p : Char → Bool) (chars : List Char) (i : Nat)
    (h : i ≤ chars.length) : skipWhile p chars i ≤ chars.length := by
  have := countWhile_le_length p (chars.drop i)
  simp only [List.length_drop] at this
  simp only [skipWhile]
  omega

theorem skipBackWhile_le (p : Char → Bool) (chars : List Char) (col : Nat) :
    skipBackWhile p chars col ≤ col := by
  induction col with
  | zero => simp [skipBackWhile]
  | succ col ih =>
    simp only [skipBackWhile]
    split <;> omega

theorem backRunStart_le (cls : Nat) (chars : List Char) (col : Nat) :
    backRunStart cls chars col ≤ col := by
  induction col with
  | zero => simp [backRunStart]
  | succ col ih =>
    simp only [backRunStart]
    split <;> omega

theorem endOfRun_lt_length (cls : Nat) (chars : List Char) (col : Nat)
    (h : col < chars.length) : endOfRun cls chars col < chars.length := by
  have := countWhile_le_length (fun c => char_class c = cls) (chars.drop (col + 1))
  simp only [List.length_drop] at this
  simp only [endOfRun]
  omega

theorem insertAt_length (t : List Char) (i : Nat) (c : Char) (h : i ≤ t.length) :
    (insertAt t i c).length = t.length + 1 := by
  simp [insertAt]
  omega

theorem insertAt_append_right (a b : List Char) (i : Nat) (c : Char) :
    insertAt (a ++ b) (a.length + i) c = a ++ insertAt b i c := by
  simp [insertAt, List.take_append_eq_append_take, List.drop_append_eq_append_drop,
        List.take_of_length_le (Nat.le_add_right a.length i),
        List.drop_eq_nil_of_le (Nat.le_add_right a.length i)]

theorem insertAt_append_left (a b : List Char) (i : Nat) (c : Char) (h : i ≤ a.length) :
    insertAt (a ++ b) i c = insertAt a i c ++ b := by
  simp [insertAt, List.take_append_eq_append_take, List.drop_append_eq_append_drop,
        Nat.sub_eq_zero_of_le h]

theorem removeRange_append_right (a b : List Char) (i j : Nat) :
    removeRange (a ++ b) (a.length + i) (a.length + j) = a ++ removeRange b i j := by
  simp [removeRange, List.take_append_eq_append_take, List.drop_append_eq_append_drop,
        List.take_of_length_le (Nat.le_add_right a.length i),
        List.drop_eq_nil_of_le (Nat.le_add_right a.length j)]

theorem removeRange_append_left (a b : List Char) (i j : Nat)
    (hi : i ≤ a.length) (hj : j ≤ a.length) :
    removeRange (a ++ b) i j = removeRange a i j ++ b := by
  simp [removeRange, List.take_append_eq_append_take, List.drop_append_eq_append_drop,
        Nat.sub_eq_zero_of_le hi, Nat.sub_eq_zero_of_le hj]

theorem removeRange_self (t : List Char) (a : Nat) : removeRange t a a = t := by
  simp [removeRange]

theorem removeRange_length (t : List Char) (a b : Nat) (hab : a ≤ b) (hb : b ≤ t.length) :
    (removeRange t a b).length = t.length - (b - a) := by
  simp [removeRange]
  omega

/-! ### splitOnNl / joinNl -/

theorem splitOnNl_ne_nil (t : List Char) : splitOnNl t ≠ [] := by
  cases t with
  | nil => simp [splitOnNl]
  | cons c rest =>
    simp only [splitOnNl]
    split
    · simp
    · split <;> simp

theorem length_splitOnNl_pos (t : List Char) : 1 ≤ (splitOnNl t).length :=
  Nat.one_le_iff_ne_zero.mpr (fun h => splitOnNl_ne_nil t (List.length_eq_zero.mp h))

theorem splitOnNl_cons_eq (c : Char) (rest s : List Char) (ss : List (List Char))
    (hr : splitOnNl rest = s :: ss) :
    splitOnNl (c :: rest) = if c = '\n' then [] :: s :: ss else (c :: s) :: ss := by
  simp only [splitOnNl, hr]

theorem splitOnNl_exists (t : List Char) :
    ∃ s ss, splitOnNl t = s :: ss := by
  cases h : splitOnNl t with
  | nil => exact absurd h (splitOnNl_ne_nil t)
  | cons s ss => exact ⟨s, ss, rfl⟩

/-- Sanity: the number of lines is the number of `'\n'` characters plus
one, which is ropey's `len_lines`. -/
theorem length_splitOnNl (t : List Char) :
    (splitOnNl t).length = t.count '\n' + 1 := by
  induction t with
  | nil => simp [splitOnNl]
  | cons c rest ih =>
    obtain ⟨s, ss, hr⟩ := splitOnNl_exists rest
    rw [hr] at ih
    rw [splitOnNl_cons_eq c rest s ss hr]
    by_cases hc : c = '\n'
    · subst hc
      rw [if_pos rfl, List.count_cons_self]
      simp only [List.length_cons] at ih ⊢
      omega
    · rw [if_neg hc, List.count_cons_of_ne (fun h => hc h.symm)]
      simp only [List.length_cons] at ih ⊢
      omega

theorem splitOnNl_no_mem_nl (t : List Char) :
    ∀ s ∈ splitOnNl t, '\n' ∉ s := by
  induction t with
  | nil => simp [splitOnNl]
  | cons c rest ih =>
    obtain ⟨s, ss, hr⟩ := splitOnNl_exists rest
    rw [splitOnNl_cons_eq c rest s ss hr]
    rw [hr] at ih
    by_cases hc : c = '\n'
    · rw [if_pos hc]
      intro x hx
      rcases List.mem_cons.mp hx with h | h
      · subst h; simp
      · exact ih x h
    · rw [if_neg hc]
      intro x hx
      rcases List.mem_cons.mp hx with h | h
      · subst h
        intro hmem
        rcases List.mem_cons.mp hmem with h | h
        · exact hc h.symm
        · exact ih s (List.mem_cons_self s ss) h
      · exact ih x (List.mem_cons_of_mem s h)

theorem joinNl_cons_cons (s s2 : List Char) (ss : List (List Char)) :
    joinNl (s :: s2 :: ss) = s ++ '\n' :: joinNl (s2 :: ss) := rfl

theorem joinNl_singleton (s : List Char) : joinNl [s] = s := rfl

theorem joinNl_splitOnNl (t : List Char) : joinNl (splitOnNl t) = t := by
  induction t with
  | nil => rfl
  | cons c rest ih =>
    obtain ⟨s, ss, hr⟩ := splitOnNl_exists rest
    rw [splitOnNl_cons_eq c rest s ss hr]
    rw [hr] at ih
    by_cases hc : c = '\n'
    · subst hc
      rw [if_pos rfl, joinNl_cons_cons, List.nil_append, ih]
    · rw [if_neg hc]
      cases ss with
      | nil =>
        rw [joinNl_singleton] at ih ⊢
        rw [ih]
      | cons s2 ss2 =>
        rw [joinNl_cons_cons] at ih ⊢
        rw [List.cons_append, ih]

theorem splitOnNl_of_no_nl (s : List Char) (h : '\n' ∉ s) : splitOnNl s = [s] := by
  induction s with
  | nil => rfl
  | cons c rest ih =>
    simp only [List.mem_cons, not_or] at h
    rw [splitOnNl_cons_eq c rest rest [] (ih h.2), if_neg (fun hh => h.1 hh.symm)]

theorem splitOnNl_append_nl (s r : List Char) (h : '\n' ∉ s) :
    splitOnNl (s ++ '\n' :: r) = s :: splitOnNl r := by
  induction s with
  | nil =>
    obtain ⟨x, xs, hx⟩ := splitOnNl_exists r
    rw [List.nil_append, splitOnNl_cons_eq '\n' r x xs hx, if_pos rfl, hx]
  | cons c rest ih =>
    simp only [List.mem_cons, not_or] at h
    obtain ⟨x, xs, hx⟩ : ∃ x xs, splitOnNl (rest ++ '\n' :: r) = x :: xs :=
      splitOnNl_exists _
    rw [ih h.2] at hx
    cases hx
    rw [List.cons_append, splitOnNl_cons_eq c _ _ _ (ih h.2),
        if_neg (fun hh => h.1 hh.symm)]

theorem splitOnNl_joinNl (ls : List (List Char)) (hne : ls ≠ [])
    (hnl : ∀ s ∈ ls, '\n' ∉ s) : splitOnNl (joinNl ls) = ls := by
  induction ls with
  | nil => exact absurd rfl hne
  | cons s ss ih =>
    cases ss with
    | nil =>
      rw [joinNl_singleton]
      exact splitOnNl_of_no_nl s (hnl s (by simp))
    | cons s2 ss2 =>
      rw [joinNl_cons_cons]
      rw [splitOnNl_append_nl s _ (hnl s (by simp))]
      rw [ih (by simp) (fun x hx => hnl x (by simp [hx]))]

/-! ### line_to_char -/

theorem line_to_char_zero (t : List Char) : line_to_char t 0 = 0 := by
  cases t <;> rfl

theorem line_to_char_nl_cons (r : List Char) (k : Nat) :
    line_to_char ('\n' :: r) (k + 1) = 1 + line_to_char r k := by
  simp [line_to_char]

theorem line_to_char_append_no_nl (s r : List Char) (k : Nat) (h : '\n' ∉ s) :
    line_to_char (s ++ r) (k + 1) = s.length + line_to_char r (k + 1) := by
  induction s with
  | nil => simp
  | cons c rest ih =>
    simp only [List.mem_cons, not_or] at h
    rw [List.cons_append]
    simp only [line_to_char]
    rw [if_neg (fun hh => h.1 hh.symm), ih h.2]
    simp only [List.length_cons]
    omega

theorem line_to_char_le_length (t : List Char) (k : Nat) :
    line_to_char t k ≤ t.length := by
  induction t generalizing k with
  | nil => cases k <;> simp [line_to_char]
  | cons c rest ih =>
    cases k with
    | zero => simp [line_to_char_zero]
    | succ k =>
      simp only [line_to_char, List.length_cons]
      split
      · have := ih k; omega
      · have := ih (k + 1); omega

theorem line_to_char_mono (t : List Char) (j k : Nat) (h : j ≤ k) :
    line_to_char t j ≤ line_to_char t k := by
  induction t generalizing j k with
  | nil => cases j <;> cases k <;> simp_all [line_to_char]
  | cons c rest ih =>
    cases j with
    | zero => simp [line_to_char_zero]
    | succ j =>
      cases k with
      | zero => omega
      | succ k =>
        simp only [line_to_char]
        split
        · have := ih j k (by omega); omega
        · have := ih (j + 1) (k + 1) (by omega); omega

theorem le_line_to_char (t : List Char) (k : Nat) (hk : k < (splitOnNl t).length) :
    k ≤ line_to_char t k := by
  induction t generalizing k with
  | nil =>
    simp only [splitOnNl, List.length_singleton] at hk
    omega
  | cons c rest ih =>
    cases k with
    | zero => simp [line_to_char_zero]
    | succ k =>
      obtain ⟨s, ss, hr⟩ := splitOnNl_exists rest
      rw [splitOnNl_cons_eq c rest s ss hr] at hk
      simp only [line_to_char]
      by_cases hc : c = '\n'
      · rw [if_pos hc] at hk
        rw [if_pos hc]
        have := ih k (by rw [hr]; simp at hk ⊢; omega)
        omega
      · rw [if_neg hc] at hk
        rw [if_neg hc]
        have := ih (k + 1) (by rw [hr]; simp at hk ⊢; omega)
        omega

theorem joinNl_cons_of_ne_nil (s : List Char) (ss : List (List Char)) (h : ss ≠ []) :
    joinNl (s :: ss) = (s ++ ['\n']) ++ joinNl ss := by
  cases ss with
  | nil => exact absurd rfl h
  | cons s2 ss2 => rw [joinNl_cons_cons]; simp

theorem length_joinNl_cons (s : List Char) (ss : List (List Char)) (h : ss ≠ []) :
    (joinNl (s :: ss)).length = s.length + 1 + (joinNl ss).length := by
  rw [joinNl_cons_of_ne_nil s ss h]
  simp
  omega

theorem joinNl_append_head (a b : List Char) (ss : List (List Char)) :
    joinNl ((a ++ b) :: ss) = a ++ joinNl (b :: ss) := by
  cases ss with
  | nil => simp [joinNl_singleton]
  | cons s2 ss2 => rw [joinNl_cons_cons, joinNl_cons_cons]; simp

theorem line_to_char_joinNl_succ (s : List Char) (ss : List (List Char)) (k : Nat)
    (hs : '\n' ∉ s) (hne : ss ≠ []) :
    line_to_char (joinNl (s :: ss)) (k + 1) =
      s.length + 1 + line_to_char (joinNl ss) k := by
  cases ss with
  | nil => exact absurd rfl hne
  | cons s2 ss2 =>
    rw [joinNl_cons_cons, line_to_char_append_no_nl s _ k hs, line_to_char_nl_cons]
    omega

/-! ### Surgery lemmas: each rope edit seen at the line level -/

theorem insertAt_joinNl (ls : List (List Char)) (row col : Nat) (c : Char)
    (hnl : ∀ s ∈ ls, '\n' ∉ s) (hrow : row < ls.length)
    (hcol : col ≤ (ls.getD row []).length) :
    insertAt (joinNl ls) (line_to_char (joinNl ls) row + col) c =
      joinNl (ls.set row (insertAt (ls.getD row []) col c)) := by
  induction ls generalizing row with
  | nil => simp at hrow
  | cons s ss ih =>
    cases row with
    | zero =>
      rw [line_to_char_zero, Nat.zero_add]
      simp only [List.getD_cons_zero] at hcol
      cases ss with
      | nil =>
        rw [joinNl_singleton]
        rfl
      | cons s2 ss2 =>
        rw [joinNl_cons_cons]
        rw [insertAt_append_left s _ col c hcol]
        rfl
    | succ row =>
      simp only [List.length_cons] at hrow
      have hss : ss ≠ [] := by
        intro h; subst h; simp at hrow
      have hs : '\n' ∉ s := hnl s (List.mem_cons_self s ss)
      rw [line_to_char_joinNl_succ s ss row hs hss]
      rw [joinNl_cons_of_ne_nil s ss hss]
      have harith :
          s.length + 1 + line_to_char (joinNl ss) row + col =
            (s ++ ['\n']).length + (line_to_char (joinNl ss) row + col) := by
        have hsl : (s ++ ['\n']).length = s.length + 1 := by simp
        omega
      rw [harith, insertAt_append_right]
      simp only [List.getD_cons_succ] at hcol ⊢
      have hrow' : row < ss.length := by omega
      rw [ih row (fun x hx => hnl x (List.mem_cons_of_mem s hx)) hrow' hcol]
      rw [List.set_cons_succ]
      rw [joinNl_cons_of_ne_nil s _ (by
        intro h
        have hl := congrArg List.length h
        simp only [List.length_set, List.length_append, List.length_take,
          List.length_drop, List.length_nil] at hl
        omega)]

theorem removeRange_joinNl (ls : List (List Char)) (row a b : Nat)
    (hnl : ∀ s ∈ ls, '\n' ∉ s) (hrow : row < ls.length)
    (hab : a ≤ b) (hb : b ≤ (ls.getD row []).length) :
    removeRange (joinNl ls) (line_to_char (joinNl ls) row + a)
        (line_to_char (joinNl ls) row + b) =
      joinNl (ls.set row ((ls.getD row []).take a ++ (ls.getD row []).drop b)) := by
  induction ls generalizing row with
  | nil => simp at hrow
  | cons s ss ih =>
    cases row with
    | zero =>
      rw [line_to_char_zero, Nat.zero_add, Nat.zero_add]
      simp only [List.getD_cons_zero] at hb ⊢
      cases ss with
      | nil =>
        rw [joinNl_singleton]
        rfl
      | cons s2 ss2 =>
        rw [joinNl_cons_cons]
        rw [removeRange_append_left s _ a b (le_trans hab hb) hb]
        rfl
    | succ row =>
      simp only [List.length_cons] at hrow
      have hss : ss ≠ [] := by
        intro h; subst h; simp at hrow
      have hs : '\n' ∉ s := hnl s (List.mem_cons_self s ss)
      rw [line_to_char_joinNl_succ s ss row hs hss]
      rw [joinNl_cons_of_ne_nil s ss hss]
      have ha :
          s.length + 1 + line_to_char (joinNl ss) row + a =
            (s ++ ['\n']).length + (line_to_char (joinNl ss) row + a) := by
        have hsl : (s ++ ['\n']).length = s.length + 1 := by simp
        omega
      have hb' :
          s.length + 1 + line_to_char (joinNl ss) row + b =
            (s ++ ['\n']).length + (line_to_char (joinNl ss) row + b) := by
        have hsl : (s ++ ['\n']).length = s.length + 1 := by simp
        omega
      rw [ha, hb', removeRange_append_right]
      simp only [List.getD_cons_succ] at hb ⊢
      have hrow' : row < ss.length := by omega
      rw [ih row (fun x hx => hnl x (List.mem_cons_of_mem s hx)) hrow' hb]
      rw [List.set_cons_succ]
      rw [joinNl_cons_of_ne_nil s _ (by
        intro h
        have hl := congrArg List.length h
        simp only [List.length_set, List.length_append, List.length_take,
          List.length_drop, List.length_nil] at hl
        omega)]

theorem removeNl_joinNl (ls : List (List Char)) (row : Nat)
    (hnl : ∀ s ∈ ls, '\n' ∉ s) (h1 : 1 ≤ row) (hrow : row < ls.length) :
    removeRange (joinNl ls) (line_to_char (joinNl ls) row - 1)
        (line_to_char (joinNl ls) row) =
      joinNl (ls.take (row - 1) ++
        (ls.getD (row - 1) [] ++ ls.getD row []) :: ls.drop (row + 1)) := by
  induction ls generalizing row with
  | nil => simp at hrow
  | cons s ss ih =>
    simp only [List.length_cons] at hrow
    have hss : ss ≠ [] := by
      intro h; subst h; simp at hrow; omega
    have hs : '\n' ∉ s := hnl s (List.mem_cons_self s ss)
    cases row with
    | zero => omega
    | succ row =>
      rw [line_to_char_joinNl_succ s ss row hs hss]
      cases row with
      | zero =>
        cases ss with
        | nil => exact absurd rfl hss
        | cons s2 ss2 =>
          rw [line_to_char_zero]
          rw [joinNl_cons_cons]
          have h01 : s.length + 1 + 0 - 1 = s.length := by omega
          have h02 : s.length + 1 + 0 = s.length + 1 := by omega
          rw [h01, h02]
          have hrhs : (s :: s2 :: ss2).take 0 ++
              ((s :: s2 :: ss2).getD 0 [] ++ (s :: s2 :: ss2).getD 1 []) ::
                (s :: s2 :: ss2).drop 2 = (s ++ s2) :: ss2 := by
            simp
          simp only [Nat.succ_sub_one] at hrhs ⊢
          rw [hrhs, joinNl_append_head]
          simp only [removeRange, List.take_append_eq_append_take,
            List.drop_append_eq_append_drop, List.take_length, Nat.sub_self,
            List.take_zero, List.append_nil,
            List.drop_eq_nil_of_le (Nat.le_succ s.length), List.nil_append]
          have h03 : s.length + 1 - s.length = 1 := by omega
          rw [h03]
          rfl
      | succ row =>
        have hlen : row + 1 < ss.length := by omega
        have hpos : 1 ≤ line_to_char (joinNl ss) (row + 1) := by
          have h4 : (splitOnNl (joinNl ss)).length = ss.length := by
            rw [splitOnNl_joinNl ss hss (fun x hx => hnl x (List.mem_cons_of_mem s hx))]
          have := le_line_to_char (joinNl ss) (row + 1) (by omega)
          omega
        rw [joinNl_cons_of_ne_nil s ss hss]
        have ha :
            s.length + 1 + line_to_char (joinNl ss) (row + 1) - 1 =
              (s ++ ['\n']).length + (line_to_char (joinNl ss) (row + 1) - 1) := by
          have hsl : (s ++ ['\n']).length = s.length + 1 := by simp
          omega
        have hb :
            s.length + 1 + line_to_char (joinNl ss) (row + 1) =
              (s ++ ['\n']).length + line_to_char (joinNl ss) (row + 1) := by
          have hsl : (s ++ ['\n']).length = s.length + 1 := by simp
          omega
        rw [ha, hb, removeRange_append_right]
        rw [ih (row + 1) (fun x hx => hnl x (List.mem_cons_of_mem s hx)) (by omega) hlen]
        simp only [Nat.succ_sub_one, List.take_succ_cons, List.getD_cons_succ,
          List.drop_succ_cons]
        rw [List.cons_append]
        rw [joinNl_cons_of_ne_nil s _ (by simp)]

theorem deleteInterior_joinNl (ls : List (List Char)) (row : Nat)
    (hnl : ∀ s ∈ ls, '\n' ∉ s) (hrow : row + 1 < ls.length) :
    removeRange (joinNl ls) (line_to_char (joinNl ls) row)
        (line_to_char (joinNl ls) (row + 1)) =
      joinNl (ls.take row ++ ls.drop (row + 1)) := by
  induction ls generalizing row with
  | nil => simp at hrow
  | cons s ss ih =>
    simp only [List.length_cons] at hrow
    have hss : ss ≠ [] := by
      intro h; subst h; simp at hrow
    have hs : '\n' ∉ s := hnl s (List.mem_cons_self s ss)
    cases row with
    | zero =>
      rw [line_to_char_zero, line_to_char_joinNl_succ s ss 0 hs hss, line_to_char_zero]
      rw [joinNl_cons_of_ne_nil s ss hss]
      simp only [removeRange, List.take_zero, List.nil_append]
      rw [List.drop_append_eq_append_drop]
      rw [List.drop_eq_nil_of_le (by simp : (s ++ ['\n']).length ≤ s.length + 1 + 0)]
      simp
    | succ row =>
      have hlen : row + 1 < ss.length := by omega
      rw [line_to_char_joinNl_succ s ss row hs hss,
          line_to_char_joinNl_succ s ss (row + 1) hs hss]
      rw [joinNl_cons_of_ne_nil s ss hss]
      have ha :
          s.length + 1 + line_to_char (joinNl ss) row =
            (s ++ ['\n']).length + line_to_char (joinNl ss) row := by
        have hsl : (s ++ ['\n']).length = s.length + 1 := by simp
        omega
      have hb :
          s.length + 1 + line_to_char (joinNl ss) (row + 1) =
            (s ++ ['\n']).length + line_to_char (joinNl ss) (row + 1) := by
        have hsl : (s ++ ['\n']).length = s.length + 1 := by simp
        omega
      rw [ha, hb, removeRange_append_right]
      rw [ih row (fun x hx => hnl x (List.mem_cons_of_mem s hx)) hlen]
      simp only [List.take_succ_cons, List.drop_succ_cons, List.cons_append]
      rw [joinNl_cons_of_ne_nil s _ (by
        intro h
        have hl := congrArg List.length h
        simp only [List.length_set, List.length_append, List.length_take,
          List.length_drop, List.length_nil] at hl
        omega)]

theorem deleteLast_joinNl (ls : List (List Char)) (row : Nat)
    (hnl : ∀ s ∈ ls, '\n' ∉ s) (h1 : 1 ≤ row) (hrow : row + 1 = ls.length) :
    removeRange (joinNl ls) (line_to_char (joinNl ls) row) (joinNl ls).length =
      joinNl (ls.take row ++ [[]]) := by
  induction ls generalizing row with
  | nil => simp at hrow
  | cons s ss ih =>
    simp only [List.length_cons] at hrow
    have hss : ss ≠ [] := by
      intro h; subst h; simp at hrow; omega
    have hs : '\n' ∉ s := hnl s (List.mem_cons_self s ss)
    cases row with
    | zero => omega
    | succ row =>
      rw [line_to_char_joinNl_succ s ss row hs hss]
      rw [length_joinNl_cons s ss hss]
      rw [joinNl_cons_of_ne_nil s ss hss]
      have ha :
          s.length + 1 + line_to_char (joinNl ss) row =
            (s ++ ['\n']).length + line_to_char (joinNl ss) row := by
        have hsl : (s ++ ['\n']).length = s.length + 1 := by simp
        omega
      have hb :
          s.length + 1 + (joinNl ss).length =
            (s ++ ['\n']).length + (joinNl ss).length := by
        have hsl : (s ++ ['\n']).length = s.length + 1 := by simp
        omega
      rw [ha, hb, removeRange_append_right]
      cases row with
      | zero =>
        rw [line_to_char_zero]
        simp only [removeRange, List.take_zero, List.nil_append, List.drop_length]
        simp only [List.take_succ_cons, List.take_zero, List.cons_append,
          List.nil_append]
        rw [joinNl_cons_of_ne_nil s [[]] (by simp)]
        simp [joinNl_singleton]
      | succ row =>
        rw [ih (row + 1) (fun x hx => hnl x (List.mem_cons_of_mem s hx)) (by omega)
          (by omega)]
        simp only [List.take_succ_cons, List.cons_append]
        rw [joinNl_cons_of_ne_nil s _ (by simp)]

/-! ### From character surgery to line surgery on an arbitrary text -/

/-- No carriage return anywhere in the text (LF-terminated text, the
persisted format of §6). -/
def NoCR (t : List Char) : Prop := '\r' ∉ t

theorem dropWhile_eq_self_of_not_mem (a : Char) (l : List Char) (h : a ∉ l) :
    l.dropWhile (fun c => c = a) = l := by
  cases l with
  | nil => rfl
  | cons c rest =>
    simp only [List.mem_cons, not_or] at h
    rw [List.dropWhile_cons_of_neg]
    simp only [decide_eq_true_eq]
    exact fun hh => h.1 hh.symm

theorem stripTrail_of_not_mem (a : Char) (s : List Char) (h : a ∉ s) :
    stripTrail a s = s := by
  unfold stripTrail
  rw [dropWhile_eq_self_of_not_mem a _ (by simpa using h), List.reverse_reverse]

theorem mem_joinNl_of_mem (ls : List (List Char)) (s : List Char) (c : Char)
    (hs : s ∈ ls) (hc : c ∈ s) : c ∈ joinNl ls := by
  induction ls with
  | nil => simp at hs
  | cons x xs ih =>
    rcases List.mem_cons.mp hs with h | h
    · subst h
      cases xs with
      | nil => rw [joinNl_singleton]; exact hc
      | cons y ys => rw [joinNl_cons_cons]; exact List.mem_append_left _ hc
    · cases xs with
      | nil => simp at h
      | cons y ys =>
        rw [joinNl_cons_cons]
        exact List.mem_append_right _ (List.mem_cons_of_mem _ (ih h))

theorem mem_text_of_mem_line (t : List Char) (s : List Char) (c : Char)
    (hs : s ∈ splitOnNl t) (hc : c ∈ s) : c ∈ t := by
  have := mem_joinNl_of_mem (splitOnNl t) s c hs hc
  rwa [joinNl_splitOnNl] at this

theorem getD_mem_of_lt (ls : List (List Char)) (i : Nat) (h : i < ls.length) :
    ls.getD i [] ∈ ls := by
  rw [List.getD_eq_getElem ls [] h]
  exact List.getElem_mem h

/-- Under in-range `idx` and CR-free text, `Buffer.line` is exactly the
`idx`-th segment of the split. -/
theorem line_eq_getD (t : List Char) (idx : Nat) (hidx : idx < Buffer.line_count t)
    (hcr : NoCR t) : Buffer.line t idx = some ((splitOnNl t).getD idx []) := by
  unfold Buffer.line
  rw [if_neg (by omega)]
  have hmem : (splitOnNl t).getD idx [] ∈ splitOnNl t := getD_mem_of_lt _ _ hidx
  have hnl : '\n' ∉ (splitOnNl t).getD idx [] := splitOnNl_no_mem_nl t _ hmem
  have hcr' : '\r' ∉ (splitOnNl t).getD idx [] := by
    intro hmem'
    exact hcr (mem_text_of_mem_line t _ '\r' hmem hmem')
  rw [stripTrail_of_not_mem '\n' _ hnl, stripTrail_of_not_mem '\r' _ hcr']

theorem line_len_eq_getD (t : List Char) (idx : Nat) (hidx : idx < Buffer.line_count t)
    (hcr : NoCR t) :
    Buffer.line_len t idx = ((splitOnNl t).getD idx []).length := by
  unfold Buffer.line_len
  rw [line_eq_getD t idx hidx hcr]
  rfl

theorem line_none_of_ge (t : List Char) (idx : Nat) (hidx : Buffer.line_count t ≤ idx) :
    Buffer.line t idx = none := by
  unfold Buffer.line
  rw [if_pos (by omega)]

theorem line_len_of_ge (t : List Char) (idx : Nat) (hidx : Buffer.line_count t ≤ idx) :
    Buffer.line_len t idx = 0 := by
  unfold Buffer.line_len
  rw [line_none_of_ge t idx hidx]
  rfl

theorem line_isSome_of_lt (t : List Char) (idx : Nat) (hidx : idx < Buffer.line_count t) :
    ∃ s, Buffer.line t idx = some s := by
  unfold Buffer.line
  rw [if_neg (by omega)]
  exact ⟨_, rfl⟩

theorem noNl_set (ls : List (List Char)) (row : Nat) (x : List Char)
    (hnl : ∀ s ∈ ls, '\n' ∉ s) (hx : '\n' ∉ x) :
    ∀ s ∈ ls.set row x, '\n' ∉ s := by
  intro s hs
  rcases List.mem_or_eq_of_mem_set hs with h | h
  · exact hnl s h
  · subst h; exact hx

theorem noNl_insertAt (s : List Char) (col : Nat) (c : Char)
    (hs : '\n' ∉ s) (hc : c ≠ '\n') : '\n' ∉ insertAt s col c := by
  unfold insertAt
  intro h
  rcases List.mem_append.mp h with h | h
  · exact hs (List.take_subset col s h)
  · rcases List.mem_cons.mp h with h | h
    · exact hc h.symm
    · exact hs (List.drop_subset col s h)

theorem noNl_sub (s : List Char) (a b : Nat) (hs : '\n' ∉ s) :
    '\n' ∉ s.take a ++ s.drop b := by
  intro h
  rcases List.mem_append.mp h with h | h
  · exact hs (List.take_subset a s h)
  · exact hs (List.drop_subset b s h)

theorem set_ne_nil_of_lt (ls : List (List Char)) (row : Nat) (x : List Char)
    (h : row < ls.length) : ls.set row x ≠ [] := by
  intro hh
  have := congrArg List.length hh
  rw [List.length_set] at this
  simp only [List.length_nil] at this
  omega

/-- Effect of `Buffer.insert_char` with `ch ≠ '\n'`: line `row` gains
the character at `col`, everything else is untouched. -/
theorem insert_char_lines (t : List Char) (row col : Nat) (ch : Char)
    (hrow : row < Buffer.line_count t)
    (hcol : col ≤ ((splitOnNl t).getD row []).length) (hch : ch ≠ '\n') :
    splitOnNl (Buffer.insert_char t row col ch) =
      (splitOnNl t).set row (insertAt ((splitOnNl t).getD row []) col ch) := by
  unfold Buffer.insert_char
  conv_lhs => rw [show t = joinNl (splitOnNl t) from (joinNl_splitOnNl t).symm]
  rw [insertAt_joinNl (splitOnNl t) row col ch (splitOnNl_no_mem_nl t) hrow hcol]
  rw [splitOnNl_joinNl _ (set_ne_nil_of_lt _ _ _ hrow)
    (noNl_set _ _ _ (splitOnNl_no_mem_nl t)
      (noNl_insertAt _ _ _ (splitOnNl_no_mem_nl t _ (getD_mem_of_lt _ _ hrow)) hch))]

theorem joinNl_split_mid (pre : List (List Char)) (a b : List Char)
    (post : List (List Char)) :
    joinNl (pre ++ (a ++ '\n' :: b) :: post) = joinNl (pre ++ a :: b :: post) := by
  induction pre with
  | nil =>
    simp only [List.nil_append]
    cases post with
    | nil =>
      rw [joinNl_singleton, joinNl_cons_cons, joinNl_singleton]
    | cons p ps =>
      rw [joinNl_cons_cons, joinNl_cons_cons, joinNl_cons_cons]
      simp
  | cons s pre ih =>
    simp only [List.cons_append]
    rw [joinNl_cons_of_ne_nil s _ (by simp), joinNl_cons_of_ne_nil s _ (by simp), ih]

/-- Effect of `Buffer.insert_newline`: line `row` splits in two at
`col`; the line count grows by one. -/
theorem insert_newline_lines (t : List Char) (row col : Nat)
    (hrow : row < Buffer.line_count t)
    (hcol : col ≤ ((splitOnNl t).getD row []).length) :
    splitOnNl (Buffer.insert_newline t row col) =
      (splitOnNl t).take row ++
        ((splitOnNl t).getD row []).take col ::
        ((splitOnNl t).getD row []).drop col :: (splitOnNl t).drop (row + 1) := by
  unfold Buffer.insert_newline
  conv_lhs => rw [show t = joinNl (splitOnNl t) from (joinNl_splitOnNl t).symm]
  rw [insertAt_joinNl (splitOnNl t) row col '\n' (splitOnNl_no_mem_nl t) hrow hcol]
  rw [List.set_eq_take_cons_drop _ hrow]
  unfold insertAt
  rw [joinNl_split_mid]
  rw [show ((splitOnNl t).take row ++
      ((splitOnNl t).getD row []).take col ::
        ((splitOnNl t).getD row []).drop col :: (splitOnNl t).drop (row + 1)) =
      ((splitOnNl t).take row ++
        ((splitOnNl t).getD row []).take col ::
          ((splitOnNl t).getD row []).drop col :: (splitOnNl t).drop (row + 1)) from rfl]
  apply splitOnNl_joinNl
  · simp
  · intro s hs
    have hnl := splitOnNl_no_mem_nl t
    have hseg : '\n' ∉ (splitOnNl t).getD row [] :=
      hnl _ (getD_mem_of_lt _ _ hrow)
    rcases List.mem_append.mp hs with h | h
    · exact hnl s (List.take_subset row _ h)
    · rcases List.mem_cons.mp h with h | h
      · subst h; exact fun hm => hseg (List.take_subset _ _ hm)
      · rcases List.mem_cons.mp h with h | h
        · subst h; exact fun hm => hseg (List.drop_subset _ _ hm)
        · exact hnl s (List.drop_subset (row + 1) _ h)

/-- Effect of an in-line `removeRange` (backing `delete_char_at`,
`delete_to_end_of_line`, `delete_word`). -/
theorem removeRange_lines (t : List Char) (row a b : Nat)
    (hrow : row < Buffer.line_count t) (hab : a ≤ b)
    (hb : b ≤ ((splitOnNl t).getD row []).length) :
    splitOnNl (removeRange t (line_to_char t row + a) (line_to_char t row + b)) =
      (splitOnNl t).set row
        (((splitOnNl t).getD row []).take a ++ ((splitOnNl t).getD row []).drop b) := by
  conv_lhs => rw [show t = joinNl (splitOnNl t) from (joinNl_splitOnNl t).symm]
  rw [removeRange_joinNl (splitOnNl t) row a b (splitOnNl_no_mem_nl t) hrow hab hb]
  rw [splitOnNl_joinNl _ (set_ne_nil_of_lt _ _ _ hrow)
    (noNl_set _ _ _ (splitOnNl_no_mem_nl t)
      (noNl_sub _ _ _ (splitOnNl_no_mem_nl t _ (getD_mem_of_lt _ _ hrow))))]

/-- Effect of removing the terminator before line `row` (the join in
`delete_char_back` at column 0): lines `row - 1` and `row` merge. -/
theorem merge_lines (t : List Char) (row : Nat)
    (h1 : 1 ≤ row) (hrow : row < Buffer.line_count t) :
    splitOnNl (removeRange t (line_to_char t row - 1) (line_to_char t row)) =
      (splitOnNl t).take (row - 1) ++
        ((splitOnNl t).getD (row - 1) [] ++ (splitOnNl t).getD row []) ::
        (splitOnNl t).drop (row + 1) := by
  have hc : Buffer.line_count t = (splitOnNl t).length := rfl
  conv_lhs => rw [show t = joinNl (splitOnNl t) from (joinNl_splitOnNl t).symm]
  rw [removeNl_joinNl (splitOnNl t) row (splitOnNl_no_mem_nl t) h1 hrow]
  apply splitOnNl_joinNl
  · simp
  · intro s hs
    have hnl := splitOnNl_no_mem_nl t
    rcases List.mem_append.mp hs with h | h
    · exact hnl s (List.take_subset _ _ h)
    · rcases List.mem_cons.mp h with h | h
      · subst h
        intro hm
        rcases List.mem_append.mp hm with h | h
        · exact hnl _ (getD_mem_of_lt _ _ (by omega)) h
        · exact hnl _ (getD_mem_of_lt _ _ (by omega)) h
      · exact hnl s (List.drop_subset _ _ h)

/-- Effect of removing the span of an interior line: the line vanishes. -/
theorem delete_interior_lines (t : List Char) (row : Nat)
    (hrow : row + 1 < Buffer.line_count t) :
    splitOnNl (removeRange t (line_to_char t row) (line_to_char t (row + 1))) =
      (splitOnNl t).take row ++ (splitOnNl t).drop (row + 1) := by
  conv_lhs => rw [show t = joinNl (splitOnNl t) from (joinNl_splitOnNl t).symm]
  rw [deleteInterior_joinNl (splitOnNl t) row (splitOnNl_no_mem_nl t) hrow]
  apply splitOnNl_joinNl
  · intro h
    have := congrArg List.length h
    simp only [List.length_append, List.length_take, List.length_drop,
      List.length_nil] at this
    unfold Buffer.line_count at hrow
    omega
  · intro s hs
    have hnl := splitOnNl_no_mem_nl t
    rcases List.mem_append.mp hs with h | h
    · exact hnl s (List.take_subset _ _ h)
    · exact hnl s (List.drop_subset _ _ h)

/-- Effect of removing the span of the final line (`row ≥ 1`): the
leading lines survive, each with its terminator, so a fresh empty
final segment appears. -/
theorem delete_last_lines (t : List Char) (row : Nat)
    (h1 : 1 ≤ row) (hrow : row + 1 = Buffer.line_count t) :
    splitOnNl (removeRange t (line_to_char t row) t.length) =
      (splitOnNl t).take row ++ [[]] := by
  conv_lhs => rw [show t = joinNl (splitOnNl t) from (joinNl_splitOnNl t).symm]
  rw [deleteLast_joinNl (splitOnNl t) row (splitOnNl_no_mem_nl t) h1 hrow]
  apply splitOnNl_joinNl
  · simp
  · intro s hs
    have hnl := splitOnNl_no_mem_nl t
    rcases List.mem_append.mp hs with h | h
    · exact hnl s (List.take_subset _ _ h)
    · rcases List.mem_cons.mp h with h | h
      · subst h; simp
      · simp at h

theorem getD_set_self (ls : List (List Char)) (row : Nat) (x : List Char)
    (h : row < ls.length) : (ls.set row x).getD row [] = x := by
  induction ls generalizing row with
  | nil => simp at h
  | cons s ss ih =>
    cases row with
    | zero => rfl
    | succ row =>
      simp only [List.set_cons_succ, List.getD_cons_succ]
      exact ih row (by simpa using h)

theorem getD_set_ne (ls : List (List Char)) (row j : Nat) (x : List Char)
    (h : j ≠ row) : (ls.set row x).getD j [] = ls.getD j [] := by
  induction ls generalizing row j with
  | nil => simp
  | cons s ss ih =>
    cases row with
    | zero =>
      cases j with
      | zero => exact absurd rfl h
      | succ j => rfl
    | succ row =>
      cases j with
      | zero => rfl
      | succ j =>
        simp only [List.set_cons_succ, List.getD_cons_succ]
        exact ih row j (by omega)

/-! ## Claim C1 -/

/-- A buffer holding exactly one real line: either a single segment (no
terminator at all) or one terminated line followed by the empty phantom
segment. -/
def singleRealLine (t : List Char) : Prop :=
  Buffer.line_count t = 1 ∨
    (Buffer.line_count t = 2 ∧ (splitOnNl t).getD 1 [] = [])

/-- Let-free unfolding of `Buffer.delete_line`. -/
theorem delete_line_eq (t : List Char) (row : Nat) :
    Buffer.delete_line t row =
      if row ≥ Buffer.line_count t then t
      else if (if row + 1 < Buffer.line_count t then line_to_char t (row + 1)
                else t.length) - line_to_char t row ≥ t.length then t
      else removeRange t (line_to_char t row)
        (if row + 1 < Buffer.line_count t then line_to_char t (row + 1)
          else t.length) := rfl

theorem delete_line_of_singleRealLine (t : List Char) (row : Nat)
    (h : singleRealLine t) : Buffer.delete_line t row = t := by
  rw [delete_line_eq]
  rcases h with h | ⟨h2, hseg⟩
  · rw [h]
    by_cases hr : row ≥ 1
    · rw [if_pos (by omega)]
    · have hr0 : row = 0 := by omega
      subst hr0
      rw [if_neg (by omega), if_neg (by omega : ¬ (0 + 1 < 1)), line_to_char_zero]
      rw [if_pos (by omega)]
  · obtain ⟨s, ss, hL⟩ := splitOnNl_exists t
    have hlen : ss.length = 1 := by
      unfold Buffer.line_count at h2
      rw [hL] at h2
      simpa using h2
    obtain ⟨b, hb⟩ : ∃ b, ss = [b] := by
      cases ss with
      | nil => simp at hlen
      | cons b bs =>
        simp only [List.length_cons, Nat.add_left_eq_self, List.length_eq_zero] at hlen
        exact ⟨b, by rw [hlen]⟩
    subst hb
    have hsegb : b = [] := by
      rw [hL] at hseg
      simpa using hseg
    subst hsegb
    have hs : '\n' ∉ s := splitOnNl_no_mem_nl t s (by rw [hL]; simp)
    have ht : t = s ++ ['\n'] := by
      conv_lhs => rw [(joinNl_splitOnNl t).symm]
      rw [hL, joinNl_cons_cons, joinNl_singleton]
    have hl2c1 : line_to_char t 1 = s.length + 1 := by
      rw [ht, line_to_char_append_no_nl s _ 0 hs, line_to_char_nl_cons]
      simp [line_to_char_zero]
    have hlent : t.length = s.length + 1 := by rw [ht]; simp
    rw [h2]
    by_cases hr : row ≥ 2
    · rw [if_pos (by omega)]
    · rw [if_neg (by omega)]
      have h01 : row = 0 ∨ row = 1 := by omega
      rcases h01 with h0 | h01
      · subst h0
        rw [if_pos (by omega : 0 + 1 < 2), line_to_char_zero, hl2c1]
        rw [if_pos (by omega)]
      · subst h01
        rw [if_neg (by omega : ¬ (1 + 1 < 2)), hl2c1]
        rw [if_neg (by omega)]
        rw [show s.length + 1 = t.length from by omega]
        simp [removeRange]

theorem delete_line_ne_nil (t : List Char) (row : Nat)
    (h : Buffer.delete_line t row = []) : t = [] := by
  by_cases htriv : t = []
  · exact htriv
  · exfalso
    unfold Buffer.delete_line at h
    by_cases h1 : row ≥ Buffer.line_count t
    · rw [if_pos h1] at h; exact htriv h
    · rw [if_neg h1] at h
      set start := line_to_char t row with hstart
      set stop := if row + 1 < Buffer.line_count t then line_to_char t (row + 1)
        else t.length with hstop
      by_cases h2 : stop - start ≥ t.length
      · rw [if_pos h2] at h; exact htriv h
      · rw [if_neg h2] at h
        have hss : start ≤ stop := by
          rw [hstop]
          split
          · exact line_to_char_mono t row (row + 1) (by omega)
          · exact line_to_char_le_length t row
        have hsl : stop ≤ t.length := by
          rw [hstop]
          split
          · exact line_to_char_le_length t (row + 1)
          · omega
        have hlen := removeRange_length t start stop hss hsl
        rw [h] at hlen
        simp only [List.length_nil] at hlen
        omega

/-- C1: every buffer has `line_count ≥ 1`, in particular after any
`delete_line`; `delete_line` is a no-op on a buffer with a single real
line, and it never empties a non-empty buffer. -/
theorem claim_C1 :
    (∀ t, 1 ≤ Buffer.line_count t) ∧
    (∀ t row, 1 ≤ Buffer.line_count (Buffer.delete_line t row)) ∧
    (∀ t row, singleRealLine t → Buffer.delete_line t row = t) ∧
    (∀ t row, Buffer.delete_line t row = [] → t = []) := by
  refine ⟨fun t => length_splitOnNl_pos t,
          fun t row => length_splitOnNl_pos _,
          delete_line_of_singleRealLine,
          delete_line_ne_nil⟩

/-- C1 witness: a concrete single-real-line buffer (`"only\n"`) is left
unchanged by `delete_line 0`, and deleting from `"a\nb\n"` keeps the
buffer non-empty. -/
theorem claim_C1_witness :
    Buffer.delete_line "only\n".toList 0 = "only\n".toList ∧
    ("a\nb\n".toList ≠ ([] : List Char)) ∧
    Buffer.delete_line "a\nb\n".toList 0 ≠ ([] : List Char) := by
  refine ⟨claim_C1.2.2.1 _ 0 (by right; constructor <;> decide), by decide, ?_⟩
  intro h
  have := claim_C1.2.2.2 _ 0 h
  simp at this

/-! ## Claim C9 -/

/-- C9: for `viewport_height ≥ 1`, `adjust_scroll` succeeds, leaves the
cursor and text unchanged, updates `scroll_offset` exactly as
specified, and afterwards the cursor row lies inside the window
`[scroll_offset, scroll_offset + viewport_height)`. -/
theorem claim_C9 (e : Editor) (vh : Nat) (hvh : 1 ≤ vh) :
    ∃ e', e.adjust_scroll vh = some e' ∧
      e'.scroll_offset ≤ e'.cursor_row ∧
      e'.cursor_row < e'.scroll_offset + vh ∧
      e'.cursor_row = e.cursor_row ∧ e'.cursor_col = e.cursor_col ∧
      e'.text = e.text ∧
      e'.scroll_offset =
        (if e.cursor_row < e.scroll_offset then e.cursor_row
         else if e.cursor_row ≥ e.scroll_offset + vh then e.cursor_row - vh + 1
         else e.scroll_offset) := by
  unfold Editor.adjust_scroll sub?
  by_cases h1 : e.cursor_row < e.scroll_offset
  · rw [if_pos h1]
    simp only
    rw [if_neg (by omega : ¬ e.cursor_row ≥ e.cursor_row + vh)]
    exact ⟨_, rfl, by simp, by simp; omega, rfl, rfl, rfl, by simp [if_pos h1]⟩
  · rw [if_neg h1]
    by_cases h2 : e.cursor_row ≥ e.scroll_offset + vh
    · rw [if_pos h2]
      rw [if_pos (by omega : vh ≤ e.cursor_row)]
      simp only
      refine ⟨_, rfl, by simp; omega, by simp; omega, rfl, rfl, rfl, ?_⟩
      simp [if_neg h1, if_pos h2]
    · rw [if_neg h2]
      exact ⟨_, rfl, by omega, by omega, rfl, rfl, rfl, by simp [if_neg h1, if_neg h2]⟩

/-! ## clamp_cursor_col projections -/

theorem clamp_text (e : Editor) : e.clamp_cursor_col.text = e.text := by
  unfold Editor.clamp_cursor_col
  split
  · rfl
  · dsimp only
    split <;> rfl

theorem clamp_row (e : Editor) : e.clamp_cursor_col.cursor_row = e.cursor_row := by
  unfold Editor.clamp_cursor_col
  split
  · rfl
  · dsimp only
    split <;> rfl

theorem clamp_mode (e : Editor) : e.clamp_cursor_col.mode = e.mode := by
  unfold Editor.clamp_cursor_col
  split
  · rfl
  · dsimp only
    split <;> rfl

theorem clamp_scroll (e : Editor) : e.clamp_cursor_col.scroll_offset = e.scroll_offset := by
  unfold Editor.clamp_cursor_col
  split
  · rfl
  · dsimp only
    split <;> rfl

theorem clamp_running (e : Editor) : e.clamp_cursor_col.running = e.running := by
  unfold Editor.clamp_cursor_col
  split
  · rfl
  · dsimp only
    split <;> rfl

theorem clamp_command_buffer (e : Editor) :
    e.clamp_cursor_col.command_buffer = e.command_buffer := by
  unfold Editor.clamp_cursor_col
  split
  · rfl
  · dsimp only
    split <;> rfl

theorem clamp_col (e : Editor) :
    e.clamp_cursor_col.cursor_col =
      if e.mode = Mode.insert then min e.cursor_col (Buffer.line_len e.text e.cursor_row)
      else if Buffer.line_len e.text e.cursor_row = 0 then 0
      else min e.cursor_col (Buffer.line_len e.text e.cursor_row - 1) := by
  unfold Editor.clamp_cursor_col
  split
  · simp_all
  · dsimp only
    split <;> simp_all

/-- Column invariant established by `clamp_cursor_col` in any mode:
`col ≤ line_len` in Insert mode, `col ≤ max (line_len - 1) 0` otherwise. -/
theorem clamp_col_le (e : Editor) :
    (e.clamp_cursor_col.mode = Mode.insert →
      e.clamp_cursor_col.cursor_col ≤ Buffer.line_len e.text e.cursor_row) ∧
    (e.clamp_cursor_col.mode ≠ Mode.insert →
      e.clamp_cursor_col.cursor_col ≤ Buffer.line_len e.text e.cursor_row - 1) := by
  rw [clamp_mode, clamp_col]
  constructor
  · intro h
    rw [if_pos h]
    omega
  · intro h
    rw [if_neg h]
    split <;> omega

/-! ## Claims C7 and C8 -/

/-- Let-free unfolding of `Editor.execute_command`. -/
theorem execute_command_eq (e : Editor) (wOk : Bool) :
    e.execute_command wOk =
      match parse_usize (rustTrim e.command_buffer) with
      | some n =>
        (({ e.exit_command_mode with cursor_row :=
            (if n = 0 then 0
             else min (n - 1) e.exit_command_mode.max_row) }).clamp_cursor_col, true)
      | none =>
        if rustTrim e.command_buffer = "w" then (e.exit_command_mode, wOk)
        else if rustTrim e.command_buffer = "q" then (e.exit_command_mode.quit, true)
        else if rustTrim e.command_buffer = "wq" then
          (if wOk then (e.exit_command_mode.quit, true) else (e.exit_command_mode, false))
        else if rustTrim e.command_buffer = "w!" then (e.exit_command_mode, true)
        else if rustTrim e.command_buffer = "q!" then (e.exit_command_mode.quit, true)
        else if rustTrim e.command_buffer = "wq!" then (e.exit_command_mode.quit, true)
        else (e.exit_command_mode, true) := rfl

/-- C7: the literal colon commands behave as specified: `w` propagates
the write outcome, `q`/`q!` quit, `wq` quits only on successful write,
`w!`/`wq!` discard the write outcome (`wq!` quits unconditionally), and
any other non-numeric command is a no-op apart from leaving Command
mode, with no error.  In particular a failing `w!` leaves `running`
untouched and reports success, and a failing `wq` skips the quit. -/
theorem claim_C7 (e : Editor) (wOk : Bool) :
    (rustTrim e.command_buffer = "w" → e.execute_command wOk = (e.exit_command_mode, wOk)) ∧
    (rustTrim e.command_buffer = "q" →
      e.execute_command wOk = (e.exit_command_mode.quit, true)) ∧
    (rustTrim e.command_buffer = "q!" →
      e.execute_command wOk = (e.exit_command_mode.quit, true)) ∧
    (rustTrim e.command_buffer = "wq" →
      e.execute_command wOk =
        (if wOk then (e.exit_command_mode.quit, true) else (e.exit_command_mode, false))) ∧
    (rustTrim e.command_buffer = "w!" → e.execute_command wOk = (e.exit_command_mode, true)) ∧
    (rustTrim e.command_buffer = "wq!" →
      e.execute_command wOk = (e.exit_command_mode.quit, true)) ∧
    (rustTrim e.command_buffer = "w!" →
      (e.execute_command false).1.running = e.running ∧ (e.execute_command false).2 = true) ∧
    (rustTrim e.command_buffer = "wq" →
      (e.execute_command false).1.running = e.running ∧
        (e.execute_command false).2 = false) ∧
    (parse_usize (rustTrim e.command_buffer) = none →
      rustTrim e.command_buffer ∉ (["w", "q", "wq", "w!", "q!", "wq!"] : List String) →
      e.execute_command wOk = (e.exit_command_mode, true)) := by
  refine ⟨?_, ?_, ?_, ?_, ?_, ?_, ?_, ?_, ?_⟩
  · intro h
    rw [execute_command_eq, h, show parse_usize "w" = none from by decide]
    rfl
  · intro h
    rw [execute_command_eq, h, show parse_usize "q" = none from by decide]
    rfl
  · intro h
    rw [execute_command_eq, h, show parse_usize "q!" = none from by decide]
    rfl
  · intro h
    rw [execute_command_eq, h, show parse_usize "wq" = none from by decide]
    rfl
  · intro h
    rw [execute_command_eq, h, show parse_usize "w!" = none from by decide]
    rfl
  · intro h
    rw [execute_command_eq, h, show parse_usize "wq!" = none from by decide]
    rfl
  · intro h
    rw [execute_command_eq, h, show parse_usize "w!" = none from by decide]
    exact ⟨rfl, rfl⟩
  · intro h
    rw [execute_command_eq, h, show parse_usize "wq" = none from by decide]
    exact ⟨rfl, rfl⟩
  · intro hp hmem
    simp only [List.mem_cons, List.mem_singleton, not_or] at hmem
    obtain ⟨n1, n2, n3, n4, n5, n6⟩ := hmem
    rw [execute_command_eq, hp]
    simp only [if_neg n1, if_neg n2, if_neg n3, if_neg n4, if_neg n5]
    rw [if_neg (by simpa using n6)]

/-- C7 witness: a failing `w!` on a concrete editor leaves `running`
true and returns no error. -/
theorem claim_C7_witness :
    (({ Editor.new "hello\n".toList with
        mode := Mode.command,
        command_buffer := "w!" }).execute_command false).1.running = true ∧
    (({ Editor.new "hello\n".toList with
        mode := Mode.command,
        command_buffer := "w!" }).execute_command false).2 = true := by
  have h := (claim_C7 { Editor.new "hello\n".toList with
    mode := Mode.command,
    command_buffer := "w!" } false).2.2.2.2.2.2.1 (by decide)
  exact ⟨h.1, h.2⟩

/-- C8: when the whole trimmed command line parses as a non-negative
integer `n`, `execute_command` exits Command mode, moves the cursor to
row `0` when `n = 0` and `min (n-1) max_row` otherwise, clamps the
column under the Normal-mode rule, touches neither text nor `running`,
and reports success. -/
theorem claim_C8 (e : Editor) (wOk : Bool) (n : Nat)
    (h : parse_usize (rustTrim e.command_buffer) = some n) :
    (e.execute_command wOk).2 = true ∧
    (e.execute_command wOk).1.cursor_row =
      (if n = 0 then 0 else min (n - 1) e.max_row) ∧
    (e.execute_command wOk).1.mode = Mode.normal ∧
    (e.execute_command wOk).1.command_buffer = "" ∧
    (e.execute_command wOk).1.text = e.text ∧
    (e.execute_command wOk).1.running = e.running ∧
    (e.execute_command wOk).1.cursor_col =
      (if Buffer.line_len e.text (if n = 0 then 0 else min (n - 1) e.max_row) = 0 then 0
       else min e.cursor_col
         (Buffer.line_len e.text (if n = 0 then 0 else min (n - 1) e.max_row) - 1)) := by
  rw [execute_command_eq, h]
  have hmax : e.exit_command_mode.max_row = e.max_row := rfl
  refine ⟨rfl, ?_, ?_, ?_, ?_, ?_, ?_⟩
  · rw [clamp_row, hmax]
  · rw [clamp_mode]
    rfl
  · rw [clamp_command_buffer]
    rfl
  · rw [clamp_text]
    rfl
  · rw [clamp_running]
    rfl
  · rw [clamp_col, hmax]
    rw [if_neg (by intro hh; exact Mode.noConfusion hh)]
    rfl

/-- C8 witness: command line `"99999"` on a five-line file clamps the
cursor row to `max_row`. -/
theorem claim_C8_witness :
    ((({ Editor.new "one\ntwo\nthree\nfour\nfive\n".toList with
        mode := Mode.command,
        command_buffer := "99999" }).execute_command true).1.cursor_row =
      ({ Editor.new "one\ntwo\nthree\nfour\nfive\n".toList with
        mode := Mode.command,
        command_buffer := "99999" } : Editor).max_row) ∧
    ({ Editor.new "one\ntwo\nthree\nfour\nfive\n".toList with
        mode := Mode.command,
        command_buffer := "99999" } : Editor).max_row = 4 := by
  have h := claim_C8 { Editor.new "one\ntwo\nthree\nfour\nfive\n".toList with
    mode := Mode.command,
    command_buffer := "99999" } true 99999 (by decide)
  refine ⟨?_, by decide⟩
  rw [h.2.1]
  decide

/-- C9 witness: concrete run at `viewport_height = 3` with the cursor
below the window. -/
theorem claim_C9_witness :
    ∃ e', (Editor.new "a\nb\nc\nd\ne\n".toList).adjust_scroll 3 = some e' ∧
      e'.scroll_offset ≤ e'.cursor_row ∧ e'.cursor_row < e'.scroll_offset + 3 := by
  obtain ⟨e', h1, h2, h3, _⟩ := claim_C9 (Editor.new "a\nb\nc\nd\ne\n".toList) 3 (by decide)
  exact ⟨e', h1, h2, h3⟩

/-! ## Claim C10 -/

theorem clamp_pending_g (e : Editor) : e.clamp_cursor_col.pending_g = e.pending_g := by
  unfold Editor.clamp_cursor_col
  split
  · rfl
  · dsimp only
    split <;> rfl

theorem clamp_pending_d (e : Editor) : e.clamp_cursor_col.pending_d = e.pending_d := by
  unfold Editor.clamp_cursor_col
  split
  · rfl
  · dsimp only
    split <;> rfl

/-- The frame a motion must respect: the text (hence every line and the
line count) and all non-cursor state are untouched; only `cursor_row`,
`cursor_col` and `scroll_offset` may change. -/
def motionFrame (e e' : Editor) : Prop :=
  e'.text = e.text ∧
  Buffer.line_count e'.text = Buffer.line_count e.text ∧
  (∀ i, Buffer.line e'.text i = Buffer.line e.text i) ∧
  e'.mode = e.mode ∧ e'.running = e.running ∧
  e'.pending_g = e.pending_g ∧ e'.pending_d = e.pending_d ∧
  e'.command_buffer = e.command_buffer

theorem motionFrame_of_eqs (e f : Editor) (h1 : f.text = e.text) (h4 : f.mode = e.mode)
    (h5 : f.running = e.running) (h6 : f.pending_g = e.pending_g)
    (h7 : f.pending_d = e.pending_d) (h8 : f.command_buffer = e.command_buffer) :
    motionFrame e f :=
  ⟨h1, by rw [h1], fun i => by rw [h1], h4, h5, h6, h7, h8⟩

theorem motionFrame_clamp (e f : Editor) (h1 : f.text = e.text) (h4 : f.mode = e.mode)
    (h5 : f.running = e.running) (h6 : f.pending_g = e.pending_g)
    (h7 : f.pending_d = e.pending_d) (h8 : f.command_buffer = e.command_buffer) :
    motionFrame e f.clamp_cursor_col :=
  motionFrame_of_eqs e f.clamp_cursor_col ((clamp_text f).trans h1)
    ((clamp_mode f).trans h4) ((clamp_running f).trans h5)
    ((clamp_pending_g f).trans h6) ((clamp_pending_d f).trans h7)
    ((clamp_command_buffer f).trans h8)

/-- C10: every motion — simple movement, file and viewport jumps,
half-page scrolls, the three word motions, and the line-position
motions — leaves the buffer text (hence `line_count` and every
`line i`) unchanged, and touches only the cursor and scroll state. -/
theorem claim_C10 (e : Editor) (vh : Nat) :
    motionFrame e e.move_left ∧
    motionFrame e e.move_right ∧
    motionFrame e e.move_up ∧
    motionFrame e e.move_down ∧
    motionFrame e e.goto_top ∧
    motionFrame e e.goto_bottom ∧
    motionFrame e e.goto_viewport_top ∧
    (∀ e', e.goto_viewport_middle vh = some e' → motionFrame e e') ∧
    (∀ e', e.goto_viewport_bottom vh = some e' → motionFrame e e') ∧
    motionFrame e (e.scroll_half_page_down vh) ∧
    motionFrame e (e.scroll_half_page_up vh) ∧
    motionFrame e e.move_word_forward ∧
    (∀ e', e.move_word_backward = some e' → motionFrame e e') ∧
    motionFrame e e.move_word_end ∧
    motionFrame e e.goto_line_start ∧
    motionFrame e e.goto_line_end ∧
    motionFrame e e.goto_first_non_blank := by
  refine ⟨?_, ?_, ?_, ?_, ?_, ?_, ?_, ?_, ?_, ?_, ?_, ?_, ?_, ?_, ?_, ?_, ?_⟩
  · exact motionFrame_of_eqs _ _ rfl rfl rfl rfl rfl rfl
  · unfold Editor.move_right
    dsimp only
    repeat' (first | split | dsimp only)
    all_goals exact motionFrame_of_eqs _ _ rfl rfl rfl rfl rfl rfl
  · exact motionFrame_clamp _ _ rfl rfl rfl rfl rfl rfl
  · unfold Editor.move_down
    dsimp only
    repeat' (first | split | dsimp only)
    all_goals exact motionFrame_clamp _ _ rfl rfl rfl rfl rfl rfl
  · exact motionFrame_clamp _ _ rfl rfl rfl rfl rfl rfl
  · exact motionFrame_clamp _ _ rfl rfl rfl rfl rfl rfl
  · exact motionFrame_clamp _ _ rfl rfl rfl rfl rfl rfl
  · intro e' h
    unfold Editor.goto_viewport_middle at h
    rcases hs : sub? (e.scroll_offset + vh) 1 with _ | b <;> rw [hs] at h
    · simp at h
    · simp only [Option.some.injEq] at h
      subst h
      exact motionFrame_clamp _ _ rfl rfl rfl rfl rfl rfl
  · intro e' h
    unfold Editor.goto_viewport_bottom at h
    rcases hs : sub? (e.scroll_offset + vh) 1 with _ | b <;> rw [hs] at h
    · simp at h
    · simp only [Option.some.injEq] at h
      subst h
      exact motionFrame_clamp _ _ rfl rfl rfl rfl rfl rfl
  · exact motionFrame_clamp _ _ rfl rfl rfl rfl rfl rfl
  · exact motionFrame_clamp _ _ rfl rfl rfl rfl rfl rfl
  · unfold Editor.move_word_forward
    dsimp only
    repeat' (first | split | dsimp only)
    all_goals
      first
      | exact motionFrame_of_eqs _ _ rfl rfl rfl rfl rfl rfl
      | exact motionFrame_clamp _ _ rfl rfl rfl rfl rfl rfl
  · intro e' h
    unfold Editor.move_word_backward at h
    dsimp only at h
    repeat' split at h
    all_goals
      first
      | exact Option.noConfusion h
      | (injection h with h2; subst h2;
         exact motionFrame_of_eqs _ _ rfl rfl rfl rfl rfl rfl)
  · unfold Editor.move_word_end Editor.word_end_on_line
    dsimp only
    repeat' (first | split | dsimp only)
    all_goals
      first
      | exact motionFrame_of_eqs _ _ rfl rfl rfl rfl rfl rfl
      | exact motionFrame_clamp _ _ rfl rfl rfl rfl rfl rfl
  · exact motionFrame_of_eqs _ _ rfl rfl rfl rfl rfl rfl
  · unfold Editor.goto_line_end
    dsimp only
    split
    · exact motionFrame_of_eqs _ _ rfl rfl rfl rfl rfl rfl
    · exact motionFrame_of_eqs _ _ rfl rfl rfl rfl rfl rfl
  · unfold Editor.goto_first_non_blank
    dsimp only
    repeat' (first | split | dsimp only)
    all_goals exact motionFrame_of_eqs _ _ rfl rfl rfl rfl rfl rfl

/-- C10 witness: the viewport-middle jump at a concrete state keeps the
text. -/
theorem claim_C10_witness :
    ∀ e', (Editor.new "hello\nworld\n".toList).goto_viewport_middle 5 = some e' →
      e'.text = "hello\nworld\n".toList := by
  intro e' h
  exact ((claim_C10 (Editor.new "hello\nworld\n".toList) 5).2.2.2.2.2.2.2.1 e' h).1

/-! ## Claim C2 -/

/-- C2 counterexample: with `viewport_height = 0` (delivered by the
run loop for a one-row terminal) and `scroll_offset = 0`, the
expression `scroll_offset + viewport_height - 1` in
`goto_viewport_middle` and `goto_viewport_bottom` underflows — the
operation is not total for every `viewport_height`, refuting the claim
as stated. -/
theorem claim_C2_cx :
    (Editor.new "hello\n".toList).goto_viewport_middle 0 = none ∧
    (Editor.new "hello\n".toList).goto_viewport_bottom 0 = none := by
  decide

theorem line_len_of_line (t : List Char) (idx : Nat) (chars : List Char)
    (h : Buffer.line t idx = some chars) : Buffer.line_len t idx = chars.length := by
  unfold Buffer.line_len
  rw [h]
  rfl

/-- C2 (amended): apart from load and write, the failure points of the
core are exactly two.  The viewport jumps underflow iff
`scroll_offset + viewport_height = 0` (total for `viewport_height ≥
1`), and `move_word_backward`'s unguarded previous-line index
`pchars[col]` (movement.rs:219) is out of bounds when the whitespace
back-scan hands control to an empty previous line — at a valid
Normal-mode cursor on CR-free text this is its only failure.
`adjust_scroll` is total for every `viewport_height` (its subtraction
is guarded); `delete_char_back` never underflows at an in-range cursor
row; `delete_to_end_of_line` never underflows when the cursor column
respects its line bound; all remaining operations are total by
construction (their subtractions are `saturating_sub` or guarded). -/
theorem claim_C2_amended :
    (∀ (e : Editor) (vh : Nat), 1 ≤ vh →
      (e.goto_viewport_middle vh).isSome ∧ (e.goto_viewport_bottom vh).isSome) ∧
    (∀ (e : Editor) (vh : Nat), (e.adjust_scroll vh).isSome) ∧
    (∀ (t : List Char) (row col : Nat), row < Buffer.line_count t →
      (Buffer.delete_char_back t row col).isSome) ∧
    (∀ e : Editor, e.cursor_col ≤ Buffer.line_len e.text e.cursor_row →
      e.delete_to_end_of_line.isSome) ∧
    (∀ e : Editor, e.cursor_row < Buffer.line_count e.text → NoCR e.text →
      e.cursor_col ≤ Buffer.line_len e.text e.cursor_row - 1 →
      e.move_word_backward = none →
        0 < (if e.cursor_col = 0 then e.cursor_row - 1 else e.cursor_row) ∧
        Buffer.line_len e.text
          ((if e.cursor_col = 0 then e.cursor_row - 1 else e.cursor_row) - 1) = 0) := by
  refine ⟨?_, ?_, ?_, ?_, ?_⟩
  · intro e vh hvh
    constructor
    · unfold Editor.goto_viewport_middle sub?
      rw [if_pos (by omega : 1 ≤ e.scroll_offset + vh)]
      rfl
    · unfold Editor.goto_viewport_bottom sub?
      rw [if_pos (by omega : 1 ≤ e.scroll_offset + vh)]
      rfl
  · intro e vh
    unfold Editor.adjust_scroll sub?
    dsimp only
    split
    · split
      · rename_i h1 h2
        dsimp only at h2 ⊢
        rw [if_pos (by omega : vh ≤ e.cursor_row)]
        rfl
      · rfl
    · split
      · rename_i h1 h2
        rw [if_pos (by omega : vh ≤ e.cursor_row)]
        rfl
      · rfl
  · intro t row col hrow
    unfold Buffer.delete_char_back sub?
    by_cases hc : col = 0
    · rw [if_pos hc]
      by_cases hl : row = 0
      · rw [if_pos hl]
        rfl
      · rw [if_neg hl]
        have hge : row ≤ line_to_char t row := le_line_to_char t row hrow
        rw [if_pos (by omega : 1 ≤ line_to_char t row)]
        rfl
    · rw [if_neg hc]
      rfl
  · intro e h
    unfold Editor.delete_to_end_of_line sub?
    dsimp only
    rw [if_pos h]
    split <;> rfl
  · intro e hrow hcr hcol hb
    unfold Editor.move_word_backward at hb
    dsimp only at hb
    by_cases h00 : e.cursor_col = 0 ∧ e.cursor_row = 0
    · rw [if_pos h00] at hb
      exact Option.noConfusion hb
    · rw [if_neg h00] at hb
      by_cases hc0 : e.cursor_col = 0
      · simp only [if_pos hc0] at hb ⊢
        by_cases hpl : Buffer.line_len e.text (e.cursor_row - 1) > 0
        · simp only [if_pos hpl] at hb
          split at hb
          · exact Option.noConfusion hb
          · rename_i chars heqL
            have hll := line_len_of_line _ _ _ heqL
            split at hb
            · exact Option.noConfusion hb
            · split at hb
              · rename_i hge
                exact absurd hge (by omega)
              · split at hb
                · split at hb
                  · rename_i hrpos
                    split at hb
                    · rename_i pchars heqP
                      split at hb
                      · rename_i hp0
                        refine ⟨hrpos, ?_⟩
                        rw [line_len_of_line _ _ _ heqP]
                        omega
                      · exact Option.noConfusion hb
                    · exact Option.noConfusion hb
                  · exact Option.noConfusion hb
                · exact Option.noConfusion hb
        · simp only [if_neg hpl] at hb
          split at hb
          · exact Option.noConfusion hb
          · rename_i chars heqL
            have hll := line_len_of_line _ _ _ heqL
            split at hb
            · exact Option.noConfusion hb
            · split at hb
              · rename_i hge
                exact absurd hge (by omega)
              · split at hb
                · split at hb
                  · rename_i hrpos
                    split at hb
                    · rename_i pchars heqP
                      split at hb
                      · rename_i hp0
                        refine ⟨hrpos, ?_⟩
                        rw [line_len_of_line _ _ _ heqP]
                        omega
                      · exact Option.noConfusion hb
                    · exact Option.noConfusion hb
                  · exact Option.noConfusion hb
                · exact Option.noConfusion hb
      · simp only [if_neg hc0] at hb ⊢
        split at hb
        · exact Option.noConfusion hb
        · rename_i chars heqL
          have hll := line_len_of_line _ _ _ heqL
          split at hb
          · exact Option.noConfusion hb
          · split at hb
            · rename_i hge
              exact absurd hge (by omega)
            · split at hb
              · split at hb
                · rename_i hrpos
                  split at hb
                  · rename_i pchars heqP
                    split at hb
                    · rename_i hp0
                      refine ⟨hrpos, ?_⟩
                      rw [line_len_of_line _ _ _ heqP]
                      omega
                    · exact Option.noConfusion hb
                  · exact Option.noConfusion hb
                · exact Option.noConfusion hb
              · exact Option.noConfusion hb

/-- C2 witness: the amended statement at concrete inputs — both
viewport jumps succeed at `viewport_height = 1`, `adjust_scroll`
succeeds at 0, `delete_char_back` succeeds at row 1 of a two-line
buffer, and the `move_word_backward` failure on `"\n a\n"` at the
valid cursor `(1, 1)` is pinned to the empty previous line. -/
theorem claim_C2_amended_witness :
    ((Editor.new "hello\n".toList).goto_viewport_middle 1).isSome ∧
    ((Editor.new "hello\n".toList).adjust_scroll 0).isSome ∧
    (Buffer.delete_char_back "ab\ncd\n".toList 1 0).isSome ∧
    (0 < (1 : Nat) ∧ Buffer.line_len "\n a\n".toList 0 = 0) := by
  refine ⟨(claim_C2_amended.1 (Editor.new "hello\n".toList) 1 (by decide)).1,
          claim_C2_amended.2.1 (Editor.new "hello\n".toList) 0,
          claim_C2_amended.2.2.1 "ab\ncd\n".toList 1 0 (by decide),
          claim_C2_amended.2.2.2.2
            { text := "\n a\n".toList, cursor_row := 1, cursor_col := 1,
              scroll_offset := 0, mode := Mode.normal, running := true,
              pending_g := false, pending_d := false, command_buffer := "" }
            (by decide) (by unfold NoCR; decide) (by decide) (by decide)⟩

/-! ## Claim C4 -/

/-- C4: the full `delete_char_back` contract on a CR-free buffer at a
valid cursor position.  With `col > 0` it removes exactly the character
before `(row, col)` — line `row` loses its character at `col - 1`,
every other line is untouched, the line count is unchanged — and
returns `(row, col - 1)`.  With `col = 0 < row` it merges line `row`
onto the end of line `row - 1` by removing the terminator between them,
drops the line count by one, and returns `(row - 1, L)` with `L` the
previous length of line `row - 1`.  With `col = 0 = row` it returns
`(0, 0)` and leaves the buffer unchanged. -/
theorem claim_C4 (t : List Char) (row col : Nat)
    (hrow : row < Buffer.line_count t) (hcr : NoCR t)
    (hcol : col ≤ Buffer.line_len t row) :
    (0 < col →
      Buffer.delete_char_back t row col =
        some (removeRange t (line_to_char t row + col - 1) (line_to_char t row + col),
              row, col - 1) ∧
      splitOnNl (removeRange t (line_to_char t row + col - 1)
          (line_to_char t row + col)) =
        (splitOnNl t).set row
          (((splitOnNl t).getD row []).take (col - 1) ++
            ((splitOnNl t).getD row []).drop col) ∧
      Buffer.line_count (removeRange t (line_to_char t row + col - 1)
          (line_to_char t row + col)) = Buffer.line_count t) ∧
    (col = 0 → 0 < row →
      Buffer.delete_char_back t row col =
        some (removeRange t (line_to_char t row - 1) (line_to_char t row),
              row - 1, Buffer.line_len t (row - 1)) ∧
      splitOnNl (removeRange t (line_to_char t row - 1) (line_to_char t row)) =
        (splitOnNl t).take (row - 1) ++
          ((splitOnNl t).getD (row - 1) [] ++ (splitOnNl t).getD row []) ::
          (splitOnNl t).drop (row + 1) ∧
      Buffer.line_count (removeRange t (line_to_char t row - 1) (line_to_char t row)) =
        Buffer.line_count t - 1) ∧
    (col = 0 → row = 0 → Buffer.delete_char_back t row col = some (t, 0, 0)) := by
  have hc : Buffer.line_count t = (splitOnNl t).length := rfl
  have hlen : Buffer.line_len t row = ((splitOnNl t).getD row []).length :=
    line_len_eq_getD t row hrow hcr
  refine ⟨?_, ?_, ?_⟩
  · intro hpos
    have hsurg := removeRange_lines t row (col - 1) col hrow (by omega)
      (by rw [← hlen]; exact hcol)
    have hidx : line_to_char t row + (col - 1) = line_to_char t row + col - 1 := by
      omega
    rw [hidx] at hsurg
    refine ⟨?_, hsurg, ?_⟩
    · unfold Buffer.delete_char_back
      rw [if_neg (by omega : ¬ col = 0)]
    · unfold Buffer.line_count
      rw [hsurg, List.length_set]
  · intro h0 hrpos
    have hsurg := merge_lines t row hrpos hrow
    refine ⟨?_, hsurg, ?_⟩
    · unfold Buffer.delete_char_back sub?
      rw [if_pos h0, if_neg (by omega : ¬ row = 0)]
      have hge : row ≤ line_to_char t row := le_line_to_char t row (by omega)
      rw [if_pos (by omega : 1 ≤ line_to_char t row)]
      dsimp only
      rw [show line_to_char t row - 1 + 1 = line_to_char t row from by omega]
    · unfold Buffer.line_count
      rw [hsurg]
      simp only [List.length_append, List.length_cons, List.length_take,
        List.length_drop]
      omega
  · intro h0 hr0
    subst h0
    subst hr0
    unfold Buffer.delete_char_back
    rw [if_pos rfl, if_pos rfl]

/-- C4 witness: backspace at `(1, 0)` of `"abc\ndef\n"` merges the two
lines and returns cursor `(0, 3)`; backspace at `(0, 3)` of `"abc\n"`
deletes the `c`. -/
theorem claim_C4_witness :
    Buffer.delete_char_back "abc\ndef\n".toList 1 0 =
      some ("abcdef\n".toList, 0, 3) ∧
    Buffer.delete_char_back "abc\n".toList 0 3 = some ("ab\n".toList, 0, 2) := by
  constructor
  · have h := (claim_C4 "abc\ndef\n".toList 1 0 (by decide)
      (by unfold NoCR; decide) (by decide)).2.1 rfl (by decide)
    rw [h.1]
    decide
  · have h := (claim_C4 "abc\n".toList 0 3 (by decide)
      (by unfold NoCR; decide) (by decide)).1 (by decide)
    rw [h.1]
    decide

/-! ## Claim C5 -/

theorem countWhile_congr (p q : Char → Bool) (h : ∀ c, p c = q c) (l : List Char) :
    countWhile p l = countWhile q l := by
  induction l with
  | nil => rfl
  | cons c rest ih => simp only [countWhile, h c, ih]

theorem skipWhile_congr (p q : Char → Bool) (h : ∀ c, p c = q c)
    (chars : List Char) (i : Nat) : skipWhile p chars i = skipWhile q chars i := by
  unfold skipWhile
  rw [countWhile_congr p q h]

theorem countWhile_after (p : Char → Bool) (l : List Char) :
    countWhile p (l.drop (countWhile p l)) = 0 := by
  induction l with
  | nil => rfl
  | cons c rest ih =>
    by_cases h : p c
    · simp only [countWhile, if_pos h, List.drop_succ_cons]
      exact ih
    · simp only [countWhile, if_neg h, List.drop_zero, if_neg h]

theorem skipWhile_idem (p : Char → Bool) (chars : List Char) (i : Nat) :
    skipWhile p chars (skipWhile p chars i) = skipWhile p chars i := by
  unfold skipWhile
  have hd : chars.drop (i + countWhile p (chars.drop i)) =
      (chars.drop i).drop (countWhile p (chars.drop i)) := by
    rw [List.drop_drop, Nat.add_comm]
  rw [hd, countWhile_after]
  omega

theorem ws_imp_not_word (c : Char) (h : c.isWhitespace = true) :
    ¬(c.isAlphanum = true ∨ c = '_') := by
  have hmem : ((c = ' ' ∨ c = '\t') ∨ c = '\x0d') ∨ c = '\n' := by
    simpa [Char.isWhitespace] using h
  rcases hmem with ((h1 | h1) | h1) | h1 <;> subst h1 <;> decide

theorem char_class_zero_eq (c : Char) :
    (decide (char_class c = 0)) = c.isWhitespace := by
  unfold char_class
  by_cases h : c.isWhitespace
  · simp [h]
  · simp only [Bool.not_eq_true] at h
    simp [h]
    split <;> simp

/-- Modelled from the spec (§4.2, Word-forward, main clause): “skip the
run containing the current character (by class); then skip any
following whitespace run.  If this exhausts the line, advance to the
next line's first non-whitespace character (or col 0 if that line is
entirely whitespace/empty); if already on `max_row`, clamp to the last
character of the current line instead.” -/
def wordForwardSpec (e : Editor) : Editor :=
  match Buffer.line e.text e.cursor_row with
  | none => e
  | some chars =>
    if e.cursor_col < chars.length then
      let cls := char_class (chars.getD e.cursor_col ' ')
      let col1 := skipWhile (fun c => char_class c = cls) chars e.cursor_col
      let col2 := skipWhile (fun c => c.isWhitespace) chars col1
      if col2 < chars.length then { e with cursor_col := col2 }
      else
        if e.cursor_row < e.max_row then
          match Buffer.line e.text (e.cursor_row + 1) with
          | some nchars =>
            let c3 := skipWhile (fun c => c.isWhitespace) nchars 0
            { e with cursor_row := e.cursor_row + 1,
                     cursor_col := if c3 ≥ nchars.length then 0 else c3 }
          | none => { e with cursor_row := e.cursor_row + 1, cursor_col := 0 }
        else { e with cursor_col := chars.length - 1 }
    else e

theorem move_word_forward_eq_spec (e : Editor) (chars : List Char)
    (hl : Buffer.line e.text e.cursor_row = some chars)
    (hcol : e.cursor_col < chars.length) :
    e.move_word_forward = wordForwardSpec e := by
  unfold Editor.move_word_forward wordForwardSpec
  dsimp only
  split
  · rfl
  · rename_i chars2 heq
    rw [hl] at heq
    injection heq with hcs
    subst hcs
    rw [if_neg (by rintro (h | h) <;> omega :
      ¬(chars.length = 0 ∨ e.cursor_col ≥ chars.length))]
    rw [if_pos hcol]
    by_cases h0 : char_class (chars.getD e.cursor_col ' ') = 0
    · rw [h0]
      rw [if_neg (fun h => h rfl : ¬ ((0 : Nat) ≠ 0))]
      rw [skipWhile_congr (fun c => decide (char_class c = 0))
        (fun c => c.isWhitespace) char_class_zero_eq chars e.cursor_col]
      rw [skipWhile_idem]
      by_cases h2 : skipWhile (fun c => c.isWhitespace) chars e.cursor_col ≥ chars.length
      · rw [if_pos h2]
        rw [if_neg (show ¬ (skipWhile (fun c => c.isWhitespace) chars e.cursor_col <
          chars.length) from by omega)]
        by_cases h3 : e.cursor_row < e.max_row
        · rw [if_neg (show ¬ (e.cursor_row + 1 > e.max_row) from by omega), if_pos h3]
        · rw [if_pos (show e.cursor_row + 1 > e.max_row from by omega), if_neg h3]
          rw [if_neg (show ¬ (chars.length = 0) from by omega)]
      · rw [if_neg h2]
        rw [if_pos (show skipWhile (fun c => c.isWhitespace) chars e.cursor_col <
          chars.length from by omega)]
    · rw [if_pos h0]
      by_cases h2 : skipWhile (fun c => c.isWhitespace) chars
          (skipWhile (fun c => decide (char_class c =
            char_class (chars.getD e.cursor_col ' '))) chars e.cursor_col) ≥
          chars.length
      · rw [if_pos h2]
        rw [if_neg (show ¬ (skipWhile (fun c => c.isWhitespace) chars
          (skipWhile (fun c => decide (char_class c =
            char_class (chars.getD e.cursor_col ' '))) chars e.cursor_col) <
          chars.length) from by omega)]
        by_cases h3 : e.cursor_row < e.max_row
        · rw [if_neg (show ¬ (e.cursor_row + 1 > e.max_row) from by omega), if_pos h3]
        · rw [if_pos (show e.cursor_row + 1 > e.max_row from by omega), if_neg h3]
          rw [if_neg (show ¬ (chars.length = 0) from by omega)]
      · rw [if_neg h2]
        rw [if_pos (show skipWhile (fun c => c.isWhitespace) chars
          (skipWhile (fun c => decide (char_class c =
            char_class (chars.getD e.cursor_col ' '))) chars e.cursor_col) <
          chars.length from by omega)]

/-- C5: on a valid in-line cursor position, `move_word_forward`
computes exactly the spec's algorithm (skip the class run, skip the
whitespace run, fall through to the next line or clamp on the last
row); and the two spec scenarios hold: on `"hello\nworld\n"` from
`(0,0)` it reaches `(1,0)`, and on `"foo.bar\n"` from `(0,0)` it
reaches `(0,3)`. -/
theorem claim_C5 :
    (∀ (e : Editor) (chars : List Char),
      Buffer.line e.text e.cursor_row = some chars →
      e.cursor_col < chars.length →
      e.move_word_forward = wordForwardSpec e) ∧
    (Editor.new "hello\nworld\n".toList).move_word_forward.cursor_row = 1 ∧
    (Editor.new "hello\nworld\n".toList).move_word_forward.cursor_col = 0 ∧
    (Editor.new "foo.bar\n".toList).move_word_forward.cursor_row = 0 ∧
    (Editor.new "foo.bar\n".toList).move_word_forward.cursor_col = 3 := by
  exact ⟨move_word_forward_eq_spec, by decide, by decide, by decide, by decide⟩

/-- C5 witness: the algorithm equivalence applied at the concrete
`"foo.bar\n"` scenario. -/
theorem claim_C5_witness :
    (Editor.new "foo.bar\n".toList).move_word_forward =
      wordForwardSpec (Editor.new "foo.bar\n".toList) := by
  exact claim_C5.1 (Editor.new "foo.bar\n".toList) "foo.bar".toList (by decide) (by decide)

/-! ## Claim C6 -/

theorem word_imp_not_ws (c : Char) (h : c.isAlphanum = true ∨ c = '_') :
    c.isWhitespace = false := by
  by_cases hw : c.isWhitespace = true
  · exact absurd h (ws_imp_not_word c hw)
  · simpa using hw

/-- The two independently written 3-way classifiers agree: `classify`'s
word class (0) is `char_class`'s class 1. -/
theorem classify_word_eq (c : Char) :
    (decide (classify c = 0)) = (decide (char_class c = 1)) := by
  unfold classify char_class
  by_cases ha : c.isAlphanum = true ∨ c = '_'
  · rw [if_pos ha, if_neg (by rw [word_imp_not_ws c ha]; decide), if_pos ha]
    rfl
  · rw [if_neg ha]
    by_cases hw : c.isWhitespace
    · rw [if_pos hw, if_pos hw]
      rfl
    · rw [if_neg hw, if_neg hw, if_neg ha]
      rfl

/-- `classify`'s whitespace class (2) is whitespace. -/
theorem classify_ws_eq (c : Char) :
    (decide (classify c = 2)) = c.isWhitespace := by
  unfold classify
  by_cases ha : c.isAlphanum = true ∨ c = '_'
  · rw [if_pos ha]
    simp [word_imp_not_ws c ha]
  · rw [if_neg ha]
    by_cases hw : c.isWhitespace
    · simp_all
    · simp_all

/-- `classify`'s punctuation class (1) is `char_class`'s class 2. -/
theorem classify_punct_eq (c : Char) :
    (decide (classify c = 1)) = (decide (char_class c = 2)) := by
  unfold classify char_class
  by_cases ha : c.isAlphanum = true ∨ c = '_'
  · rw [if_pos ha, if_neg (by rw [word_imp_not_ws c ha]; decide), if_pos ha]
    rfl
  · rw [if_neg ha]
    by_cases hw : c.isWhitespace
    · rw [if_pos hw, if_pos hw]
      rfl
    · rw [if_neg hw, if_neg hw, if_neg ha]
      rfl

/-- The in-line column `move_word_forward` reaches: the `col1`/`col2`
loop block of movement.rs (skip the class run when not on whitespace,
then skip whitespace), capped at the line length. -/
def wordForwardLineExtent (chars : List Char) (col : Nat) : Nat :=
  let start_class := char_class (chars.getD col ' ')
  let col1 := if start_class ≠ 0
    then skipWhile (fun c => char_class c = start_class) chars col
    else col
  skipWhile (fun c => c.isWhitespace) chars col1

/-- The end position `delete_word` computes with its own classifier
(deletion.rs): skip the current class run, then trailing whitespace
unless the run was whitespace. -/
def deleteWordExtent (chars : List Char) (col : Nat) : Nat :=
  let start_class := classify (chars.getD col ' ')
  let pos := skipWhile (fun c => classify c = start_class) chars col
  if start_class ≠ 2 then skipWhile (fun c => c.isWhitespace) chars pos else pos

/-- Refinement core of C6: the two independently implemented extent
computations coincide. -/
theorem deleteWordExtent_eq (chars : List Char) (col : Nat) :
    deleteWordExtent chars col = wordForwardLineExtent chars col := by
  unfold deleteWordExtent wordForwardLineExtent
  dsimp only
  by_cases ha : (chars.getD col ' ').isAlphanum = true ∨ chars.getD col ' ' = '_'
  · have hcw : classify (chars.getD col ' ') = 0 := by
      unfold classify
      rw [if_pos ha]
    have hcc : char_class (chars.getD col ' ') = 1 := by
      unfold char_class
      rw [if_neg (by rw [word_imp_not_ws _ ha]; decide), if_pos ha]
    rw [hcw, hcc]
    rw [if_pos (by omega : (0 : Nat) ≠ 2), if_pos (by omega : (1 : Nat) ≠ 0)]
    rw [skipWhile_congr (fun c => decide (classify c = 0))
      (fun c => decide (char_class c = 1)) classify_word_eq chars col]
  · by_cases hw : (chars.getD col ' ').isWhitespace
    · have hcw : classify (chars.getD col ' ') = 2 := by
        unfold classify
        rw [if_neg ha, if_pos hw]
      have hcc : char_class (chars.getD col ' ') = 0 := by
        unfold char_class
        rw [if_pos hw]
      rw [hcw, hcc]
      rw [if_neg (by omega : ¬ ((2 : Nat) ≠ 2)), if_neg (by omega : ¬ ((0 : Nat) ≠ 0))]
      rw [skipWhile_congr (fun c => decide (classify c = 2))
        (fun c => c.isWhitespace) classify_ws_eq chars col]
    · have hcw : classify (chars.getD col ' ') = 1 := by
        unfold classify
        rw [if_neg ha, if_neg hw]
      have hcc : char_class (chars.getD col ' ') = 2 := by
        unfold char_class
        rw [if_neg hw, if_neg ha]
      rw [hcw, hcc]
      rw [if_pos (by omega : (1 : Nat) ≠ 2), if_pos (by omega : (2 : Nat) ≠ 0)]
      rw [skipWhile_congr (fun c => decide (classify c = 1))
        (fun c => decide (char_class c = 2)) classify_punct_eq chars col]

theorem NoCR_removeRange (t : List Char) (a b : Nat) (h : NoCR t) :
    NoCR (removeRange t a b) := by
  unfold NoCR removeRange at *
  intro hm
  rcases List.mem_append.mp hm with hm | hm
  · exact h (List.take_subset a t hm)
  · exact h (List.drop_subset b t hm)

theorem NoCR_delete_char_at (t : List Char) (row col : Nat) (h : NoCR t) :
    NoCR (Buffer.delete_char_at t row col) := by
  unfold Buffer.delete_char_at
  dsimp only
  split
  · exact h
  · exact NoCR_removeRange t _ _ h

theorem set_getD_self (ls : List (List Char)) (row : Nat) (h : row < ls.length) :
    ls.set row (ls.getD row []) = ls := by
  induction ls generalizing row with
  | nil => simp at h
  | cons s ss ih =>
    cases row with
    | zero => rfl
    | succ row =>
      simp only [List.getD_cons_succ, List.set_cons_succ]
      rw [ih row (by simpa using h)]

/-- Effect of an in-range `delete_char_at` at the line level. -/
theorem delete_char_at_lines (t : List Char) (row col : Nat)
    (hrow : row < Buffer.line_count t) (hcr : NoCR t)
    (hcol : col < ((splitOnNl t).getD row []).length) :
    splitOnNl (Buffer.delete_char_at t row col) =
      (splitOnNl t).set row
        (((splitOnNl t).getD row []).take col ++
          ((splitOnNl t).getD row []).drop (col + 1)) := by
  unfold Buffer.delete_char_at
  rw [line_len_eq_getD t row hrow hcr]
  rw [if_neg (by rintro (h | h) <;> omega)]
  have hidx : line_to_char t row + col + 1 = line_to_char t row + (col + 1) := by omega
  rw [hidx]
  exact removeRange_lines t row col (col + 1) hrow (by omega) (by omega)

/-- Effect of the loop `for _ in 0..k { delete_char_at(row, col) }`:
`k` characters vanish from line `row` starting at `col`. -/
theorem applyN_delete_char_at (k : Nat) : ∀ (t : List Char) (row col : Nat),
    row < Buffer.line_count t → NoCR t →
    col + k ≤ ((splitOnNl t).getD row []).length →
    splitOnNl (applyN (fun t => Buffer.delete_char_at t row col) k t) =
      (splitOnNl t).set row
        (((splitOnNl t).getD row []).take col ++
          ((splitOnNl t).getD row []).drop (col + k)) := by
  induction k with
  | zero =>
    intro t row col hrow hcr hk
    unfold applyN
    rw [Nat.add_zero, List.take_append_drop, set_getD_self _ _ hrow]
  | succ k ih =>
    intro t row col hrow hcr hk
    have hcol : col < ((splitOnNl t).getD row []).length := by omega
    have h1 := delete_char_at_lines t row col hrow hcr hcol
    have hrow' : row < Buffer.line_count (Buffer.delete_char_at t row col) := by
      unfold Buffer.line_count at *
      rw [h1, List.length_set]
      exact hrow
    have hcr' : NoCR (Buffer.delete_char_at t row col) :=
      NoCR_delete_char_at t row col hcr
    have hseg' : (splitOnNl (Buffer.delete_char_at t row col)).getD row [] =
        ((splitOnNl t).getD row []).take col ++
          ((splitOnNl t).getD row []).drop (col + 1) := by
      rw [h1, getD_set_self _ _ _ hrow]
    show splitOnNl (applyN (fun t => Buffer.delete_char_at t row col) k
      (Buffer.delete_char_at t row col)) = _
    rw [ih (Buffer.delete_char_at t row col) row col hrow' hcr'
      (by rw [hseg']; simp only [List.length_append, List.length_take,
        List.length_drop]; omega)]
    rw [hseg', h1, List.set_set]
    have htl : ((splitOnNl t).getD row []).length = min col
        ((splitOnNl t).getD row []).length + (((splitOnNl t).getD row []).length -
          (col + 1)) + 1 := by omega
    have htake : (((splitOnNl t).getD row []).take col ++
        ((splitOnNl t).getD row []).drop (col + 1)).take col =
        ((splitOnNl t).getD row []).take col := by
      rw [List.take_append_eq_append_take, List.length_take]
      rw [show min col ((splitOnNl t).getD row []).length = col from by omega]
      rw [Nat.sub_self, List.take_zero, List.append_nil, List.take_take]
      rw [show min col col = col from by omega]
    have hdrop : (((splitOnNl t).getD row []).take col ++
        ((splitOnNl t).getD row []).drop (col + 1)).drop (col + k) =
        ((splitOnNl t).getD row []).drop (col + (k + 1)) := by
      rw [List.drop_append_eq_append_drop, List.length_take]
      rw [show min col ((splitOnNl t).getD row []).length = col from by omega]
      rw [List.drop_eq_nil_of_le (by rw [List.length_take]; omega), List.nil_append]
      rw [List.drop_drop]
      rw [show col + 1 + (col + k - col) = col + (k + 1) from by omega]
    rw [htake, hdrop]

theorem le_deleteWordExtent (chars : List Char) (col : Nat) :
    col ≤ deleteWordExtent chars col := by
  unfold deleteWordExtent
  dsimp only
  split
  · exact le_trans (le_skipWhile _ _ _) (le_skipWhile _ _ _)
  · exact le_skipWhile _ _ _

theorem deleteWordExtent_le (chars : List Char) (col : Nat) (h : col ≤ chars.length) :
    deleteWordExtent chars col ≤ chars.length := by
  unfold deleteWordExtent
  dsimp only
  split
  · exact skipWhile_le_length _ _ _ (skipWhile_le_length _ _ _ h)
  · exact skipWhile_le_length _ _ _ h

/-- `delete_word` is a no-op at or past the end of the line. -/
theorem delete_word_noop (e : Editor) (chars : List Char)
    (hl : Buffer.line e.text e.cursor_row = some chars)
    (h : chars.length ≤ e.cursor_col) : e.delete_word = e := by
  unfold Editor.delete_word
  split
  · rfl
  · rename_i chars2 heq
    rw [hl] at heq
    injection heq with hcs
    subst hcs
    rw [if_pos (by omega : e.cursor_col ≥ chars.length)]

/-- Characterisation of `delete_word` below the end of line: it runs
the `delete_char_at` loop `deleteWordExtent - col` times and clamps. -/
theorem delete_word_eq (e : Editor) (chars : List Char)
    (hl : Buffer.line e.text e.cursor_row = some chars)
    (h2 : e.cursor_col < chars.length) :
    e.delete_word =
      Editor.clamp_cursor_col { e with text := applyN (fun t => Buffer.delete_char_at t e.cursor_row e.cursor_col) (deleteWordExtent chars e.cursor_col - e.cursor_col) e.text } := by
  unfold Editor.delete_word deleteWordExtent
  split
  · rename_i heq
    rw [hl] at heq
    cases heq
  · rename_i chars2 heq
    rw [hl] at heq
    injection heq with hcs
    subst hcs
    rw [if_neg (by omega : ¬ e.cursor_col ≥ chars.length)]

/-- C6: on a CR-free buffer with an in-range cursor row, `delete_word`
is a no-op at or past the end of its line; otherwise it deletes from
line `row` exactly the columns `[col, E)` where `E` is the in-line
extent the Word-forward motion computes — the two independently
implemented classifications agree (`deleteWordExtent_eq`), the deleted
span is clipped at the end of the line, and no other line changes. -/
theorem claim_C6 (e : Editor)
    (hrow : e.cursor_row < Buffer.line_count e.text) (hcr : NoCR e.text) :
    (Buffer.line_len e.text e.cursor_row ≤ e.cursor_col → e.delete_word = e) ∧
    (e.cursor_col < Buffer.line_len e.text e.cursor_row →
      deleteWordExtent ((splitOnNl e.text).getD e.cursor_row []) e.cursor_col =
        wordForwardLineExtent ((splitOnNl e.text).getD e.cursor_row []) e.cursor_col ∧
      splitOnNl e.delete_word.text =
        (splitOnNl e.text).set e.cursor_row
          (((splitOnNl e.text).getD e.cursor_row []).take e.cursor_col ++
            ((splitOnNl e.text).getD e.cursor_row []).drop
              (wordForwardLineExtent ((splitOnNl e.text).getD e.cursor_row [])
                e.cursor_col)) ∧
      e.delete_word.cursor_row = e.cursor_row) := by
  have hline := line_eq_getD e.text e.cursor_row hrow hcr
  have hlen := line_len_eq_getD e.text e.cursor_row hrow hcr
  constructor
  · intro h
    exact delete_word_noop e _ hline (by omega)
  · intro h2
    have h2' : e.cursor_col < ((splitOnNl e.text).getD e.cursor_row []).length := by
      omega
    have heq := delete_word_eq e _ hline h2'
    have hcolP := le_deleteWordExtent ((splitOnNl e.text).getD e.cursor_row [])
      e.cursor_col
    have hPle := deleteWordExtent_le ((splitOnNl e.text).getD e.cursor_row [])
      e.cursor_col (by omega)
    refine ⟨deleteWordExtent_eq _ _, ?_, ?_⟩
    · rw [heq, clamp_text]
      show splitOnNl (applyN (fun t => Buffer.delete_char_at t e.cursor_row
        e.cursor_col) (deleteWordExtent ((splitOnNl e.text).getD e.cursor_row [])
          e.cursor_col - e.cursor_col) e.text) = _
      rw [applyN_delete_char_at _ e.text e.cursor_row e.cursor_col hrow hcr
        (by omega)]
      rw [show e.cursor_col + (deleteWordExtent ((splitOnNl e.text).getD
        e.cursor_row []) e.cursor_col - e.cursor_col) =
        deleteWordExtent ((splitOnNl e.text).getD e.cursor_row []) e.cursor_col
        from by omega]
      rw [deleteWordExtent_eq]
    · rw [heq, clamp_row]

/-- C6 witness: `dw` on `"foo.bar\n"` at column 0 deletes exactly the
3-column extent Word-forward computes, leaving `".bar"`. -/
theorem claim_C6_witness :
    (Editor.new "foo.bar\n".toList).delete_word.text = ".bar\n".toList ∧
    deleteWordExtent "foo.bar".toList 0 = wordForwardLineExtent "foo.bar".toList 0 := by
  have h := claim_C6 (Editor.new "foo.bar\n".toList) (by decide)
    (by unfold NoCR; decide)
  have h2 := h.2 (by decide)
  refine ⟨?_, h2.1⟩
  have h3 := h2.2.1
  have hj : (Editor.new "foo.bar\n".toList).delete_word.text =
      joinNl (splitOnNl (Editor.new "foo.bar\n".toList).delete_word.text) :=
    (joinNl_splitOnNl _).symm
  rw [hj, h3]
  decide

/-! ## Claim C3: cursor invariants -/

/-- The per-mode column bound of the cursor invariant: in Insert mode
the cursor may sit one past the end of its line, in the other modes at
most on the last character (column 0 on an empty line). -/
def colBound (e : Editor) : Prop :=
  e.cursor_col ≤
    Buffer.line_len e.text e.cursor_row - (if e.mode = Mode.insert then 0 else 1)

/-- The amended cursor invariant: CR-free text, cursor row strictly
below the ropey line count, and the per-mode column bound. -/
def InvA (e : Editor) : Prop :=
  NoCR e.text ∧ e.cursor_row < Buffer.line_count e.text ∧ colBound e

/-- A fallible editor step succeeds and its result satisfies the
invariant. -/
def stepOK (o : Option Editor) : Prop :=
  ∃ e', o = some e' ∧ InvA e'

theorem stepOK_some (x : Editor) (h : InvA x) : stepOK (some x) :=
  ⟨x, rfl, h⟩

/-- A key-handling step is safe for key `k`: whatever state it returns
satisfies the invariant, and it can fail (the modelled panic) only on
the `b` word-backward motion. -/
def stepSafe (k : KeyEvent) (o : Option Editor) : Prop :=
  (∀ e', o = some e' → InvA e') ∧ (o = none → k.code = KeyCode.char 'b')

theorem stepSafe_some (k : KeyEvent) (x : Editor) (h : InvA x) :
    stepSafe k (some x) :=
  ⟨fun e' he => by
    injection he with h2
    rw [← h2]
    exact h,
   fun hn => Option.noConfusion hn⟩

theorem stepSafe_of_stepOK (k : KeyEvent) (o : Option Editor) (h : stepOK o) :
    stepSafe k o := by
  obtain ⟨x, heq, hx⟩ := h
  subst heq
  exact stepSafe_some k x hx

theorem line_count_pos (t : List Char) : 1 ≤ Buffer.line_count t :=
  length_splitOnNl_pos t

theorem max_row_lt_count (e : Editor) : e.max_row < Buffer.line_count e.text := by
  have h := length_splitOnNl_pos e.text
  have hc : Buffer.line_count e.text = (splitOnNl e.text).length := rfl
  unfold Editor.max_row
  dsimp only
  split <;> omega

theorem colBound_clamp (e : Editor) : colBound e.clamp_cursor_col := by
  unfold colBound
  rw [clamp_text, clamp_row, clamp_mode, clamp_col]
  by_cases hm : e.mode = Mode.insert
  · rw [if_pos hm, if_pos hm]
    omega
  · rw [if_neg hm, if_neg hm]
    split <;> omega

theorem InvA_clamp (e : Editor) (h1 : NoCR e.text)
    (h2 : e.cursor_row < Buffer.line_count e.text) : InvA e.clamp_cursor_col := by
  refine ⟨?_, ?_, colBound_clamp e⟩
  · rw [clamp_text]
    exact h1
  · rw [clamp_text, clamp_row]
    exact h2

theorem InvA_congr (e f : Editor) (ht : f.text = e.text)
    (hr : f.cursor_row = e.cursor_row) (hc : f.cursor_col = e.cursor_col)
    (hm : f.mode = e.mode) (h : InvA e) : InvA f := by
  unfold InvA colBound at *
  rw [ht, hr, hc, hm]
  exact h

theorem colBound_of_le (e : Editor)
    (h : e.cursor_col ≤ Buffer.line_len e.text e.cursor_row - 1) : colBound e := by
  unfold colBound
  by_cases hm : e.mode = Mode.insert
  · rw [if_pos hm]
    omega
  · rw [if_neg hm]
    exact h

theorem NoCR_insertAt (t : List Char) (i : Nat) (c : Char) (hc : c ≠ '\r')
    (h : NoCR t) : NoCR (insertAt t i c) := by
  unfold NoCR insertAt at *
  intro hm
  rcases List.mem_append.mp hm with hm | hm
  · exact h (List.take_subset _ _ hm)
  · rcases List.mem_cons.mp hm with hm | hm
    · exact hc hm.symm
    · exact h (List.drop_subset _ _ hm)

theorem NoCR_delete_line (t : List Char) (row : Nat) (h : NoCR t) :
    NoCR (Buffer.delete_line t row) := by
  unfold Buffer.delete_line
  dsimp only
  split
  · exact h
  · split <;> split <;> first | exact h | exact NoCR_removeRange _ _ _ h

theorem NoCR_applyN_delete_char_at (k : Nat) (t : List Char) (row col : Nat)
    (h : NoCR t) :
    NoCR (applyN (fun t => Buffer.delete_char_at t row col) k t) := by
  induction k generalizing t with
  | zero => exact h
  | succ k ih => exact ih _ (NoCR_delete_char_at t row col h)

theorem count_delete_char_at (t : List Char) (row col : Nat)
    (hrow : row < Buffer.line_count t) (hcr : NoCR t) :
    Buffer.line_count (Buffer.delete_char_at t row col) = Buffer.line_count t := by
  by_cases hc : col < ((splitOnNl t).getD row []).length
  · unfold Buffer.line_count
    rw [delete_char_at_lines t row col hrow hcr hc, List.length_set]
  · have hlen := line_len_eq_getD t row hrow hcr
    unfold Buffer.delete_char_at
    dsimp only
    rw [if_pos (Or.inr (by omega : col ≥ Buffer.line_len t row))]

theorem getD_take_append (ls : List (List Char)) (k : Nat) (x : List Char)
    (l2 : List (List Char)) (hk : k ≤ ls.length) :
    (ls.take k ++ x :: l2).getD k [] = x := by
  induction ls generalizing k with
  | nil =>
    have hz : k = 0 := by simpa using hk
    subst hz
    rfl
  | cons a as ih =>
    cases k with
    | zero => rfl
    | succ k =>
      simp only [List.take_succ_cons, List.cons_append, List.getD_cons_succ]
      exact ih k (by simpa using hk)

theorem InvA_move_left (e : Editor) (h : InvA e) : InvA e.move_left := by
  obtain ⟨hcr, hrow, hcol⟩ := h
  unfold Editor.move_left
  refine ⟨hcr, hrow, ?_⟩
  unfold colBound at *
  dsimp only
  omega

theorem InvA_move_right (e : Editor) (h : InvA e) : InvA e.move_right := by
  obtain ⟨hcr, hrow, hcol⟩ := h
  unfold Editor.move_right
  dsimp only
  by_cases hm : e.mode = Mode.insert
  · rw [if_pos hm]
    split
    · rename_i hlt
      refine ⟨hcr, hrow, ?_⟩
      unfold colBound
      dsimp only
      rw [if_pos hm]
      omega
    · exact ⟨hcr, hrow, hcol⟩
  · rw [if_neg hm]
    split
    · rename_i hll
      split
      · rename_i hlt
        refine ⟨hcr, hrow, ?_⟩
        unfold colBound
        dsimp only
        rw [if_neg hm]
        omega
      · exact ⟨hcr, hrow, hcol⟩
    · split
      · rename_i hlt
        exact absurd hlt (by omega)
      · exact ⟨hcr, hrow, hcol⟩

theorem InvA_move_down (e : Editor) (h : InvA e) : InvA e.move_down := by
  obtain ⟨hcr, hrow, hcol⟩ := h
  have hmx := max_row_lt_count e
  unfold Editor.move_down
  dsimp only
  split
  · exact InvA_clamp _ hcr (by dsimp only; omega)
  · exact InvA_clamp _ hcr hrow

theorem InvA_move_up (e : Editor) (h : InvA e) : InvA e.move_up := by
  obtain ⟨hcr, hrow, hcol⟩ := h
  unfold Editor.move_up
  exact InvA_clamp _ hcr (by dsimp only; omega)

theorem InvA_goto_top (e : Editor) (h : InvA e) : InvA e.goto_top := by
  obtain ⟨hcr, hrow, hcol⟩ := h
  unfold Editor.goto_top
  exact InvA_clamp _ hcr (by dsimp only; omega)

theorem InvA_goto_bottom (e : Editor) (h : InvA e) : InvA e.goto_bottom := by
  obtain ⟨hcr, hrow, hcol⟩ := h
  have hmx := max_row_lt_count e
  unfold Editor.goto_bottom
  exact InvA_clamp _ hcr (by dsimp only; omega)

theorem InvA_goto_viewport_top (e : Editor)
    (hscroll : e.scroll_offset ≤ e.cursor_row) (h : InvA e) :
    InvA e.goto_viewport_top := by
  obtain ⟨hcr, hrow, hcol⟩ := h
  unfold Editor.goto_viewport_top
  exact InvA_clamp _ hcr (by dsimp only; omega)

theorem InvA_goto_viewport_middle (e : Editor) (vh : Nat) (hvh : 1 ≤ vh)
    (hscroll : e.scroll_offset ≤ e.cursor_row) (h : InvA e) :
    stepOK (e.goto_viewport_middle vh) := by
  obtain ⟨hcr, hrow, hcol⟩ := h
  have hmx := max_row_lt_count e
  unfold Editor.goto_viewport_middle
  dsimp only
  split
  · rename_i heq
    unfold sub? at heq
    rw [if_pos (by omega : 1 ≤ e.scroll_offset + vh)] at heq
    exact Option.noConfusion heq
  · rename_i b heq
    exact stepOK_some _ (InvA_clamp _ hcr (by dsimp only; omega))

theorem InvA_goto_viewport_bottom (e : Editor) (vh : Nat) (hvh : 1 ≤ vh)
    (h : InvA e) : stepOK (e.goto_viewport_bottom vh) := by
  obtain ⟨hcr, hrow, hcol⟩ := h
  have hmx := max_row_lt_count e
  unfold Editor.goto_viewport_bottom
  split
  · rename_i heq
    unfold sub? at heq
    rw [if_pos (by omega : 1 ≤ e.scroll_offset + vh)] at heq
    exact Option.noConfusion heq
  · rename_i b heq
    exact stepOK_some _ (InvA_clamp _ hcr (by dsimp only; omega))

theorem InvA_move_word_forward (e : Editor) (h : InvA e) :
    InvA e.move_word_forward := by
  obtain ⟨hcr, hrow, hcol⟩ := h
  have hmx := max_row_lt_count e
  unfold Editor.move_word_forward
  dsimp only
  split
  · exact ⟨hcr, hrow, hcol⟩
  · rename_i chars heq
    have hll := line_len_of_line _ _ _ heq
    split
    · split
      · split
        · rename_i nchars heq2
          have hll2 := line_len_of_line _ _ _ heq2
          split
          · rename_i hnc
            exact ⟨hcr, by dsimp only; omega, colBound_of_le _ (by dsimp only; omega)⟩
          · exact ⟨hcr, by dsimp only; omega, colBound_of_le _ (by dsimp only; omega)⟩
        · exact ⟨hcr, by dsimp only; omega, colBound_of_le _ (by dsimp only; omega)⟩
      · exact ⟨hcr, hrow, hcol⟩
    · split
      · split
        · split
          · refine ⟨hcr, hrow, colBound_of_le _ ?_⟩
            dsimp only
            split <;> omega
          · split
            · rename_i nchars heq2
              have hll2 := line_len_of_line _ _ _ heq2
              refine ⟨hcr, by dsimp only; omega, colBound_of_le _ ?_⟩
              dsimp only
              split <;> omega
            · exact ⟨hcr, by dsimp only; omega, colBound_of_le _ (by dsimp only; omega)⟩
        · rename_i hc2
          exact ⟨hcr, hrow, colBound_of_le _ (by dsimp only; omega)⟩
      · split
        · split
          · refine ⟨hcr, hrow, colBound_of_le _ ?_⟩
            dsimp only
            split <;> omega
          · split
            · rename_i nchars heq2
              have hll2 := line_len_of_line _ _ _ heq2
              refine ⟨hcr, by dsimp only; omega, colBound_of_le _ ?_⟩
              dsimp only
              split <;> omega
            · exact ⟨hcr, by dsimp only; omega, colBound_of_le _ (by dsimp only; omega)⟩
        · rename_i hc2
          exact ⟨hcr, hrow, colBound_of_le _ (by dsimp only; omega)⟩

theorem backRun_skipBack_le (cls : Nat) (p : Char → Bool) (chars : List Char)
    (c : Nat) : backRunStart cls chars (skipBackWhile p chars c) ≤ c :=
  le_trans (backRunStart_le _ _ _) (skipBackWhile_le _ _ _)

theorem InvA_move_word_backward (e : Editor) (h : InvA e) :
    ∀ e', e.move_word_backward = some e' → InvA e' := by
  obtain ⟨hcr, hrow, hcol⟩ := h
  have hcolB : colBound e := hcol
  unfold colBound at hcol
  intro e' heq
  unfold Editor.move_word_backward at heq
  dsimp only at heq
  by_cases h00 : e.cursor_col = 0 ∧ e.cursor_row = 0
  · rw [if_pos h00] at heq
    injection heq with h2
    subst h2
    exact ⟨hcr, hrow, hcolB⟩
  · rw [if_neg h00] at heq
    by_cases hc0 : e.cursor_col = 0
    · simp only [if_pos hc0] at heq
      by_cases hpl : Buffer.line_len e.text (e.cursor_row - 1) > 0
      · simp only [if_pos hpl] at heq
        split at heq
        · injection heq with h2
          subst h2
          exact ⟨hcr, hrow, hcolB⟩
        · rename_i chars heqL
          have hll := line_len_of_line _ _ _ heqL
          split at heq
          · injection heq with h2
            subst h2
            exact ⟨hcr, by dsimp only; omega, colBound_of_le _ (by dsimp only; omega)⟩
          · split at heq
            · exact Option.noConfusion heq
            · split at heq
              · split at heq
                · split at heq
                  · rename_i pchars heqP
                    split at heq
                    · exact Option.noConfusion heq
                    · injection heq with h2
                      subst h2
                      refine ⟨hcr, by dsimp only; omega, colBound_of_le _ ?_⟩
                      dsimp only
                      apply le_trans (backRun_skipBack_le _ _ _ _)
                      split <;> omega
                  · injection heq with h2
                    subst h2
                    refine ⟨hcr, by dsimp only; omega, colBound_of_le _ ?_⟩
                    dsimp only
                    split <;> omega
                · injection heq with h2
                  subst h2
                  refine ⟨hcr, by dsimp only; omega, colBound_of_le _ ?_⟩
                  dsimp only
                  apply le_trans (skipBackWhile_le _ _ _)
                  omega
              · injection heq with h2
                subst h2
                refine ⟨hcr, by dsimp only; omega, colBound_of_le _ ?_⟩
                dsimp only
                apply le_trans (backRun_skipBack_le _ _ _ _)
                omega
      · simp only [if_neg hpl] at heq
        split at heq
        · injection heq with h2
          subst h2
          exact ⟨hcr, hrow, hcolB⟩
        · rename_i chars heqL
          have hll := line_len_of_line _ _ _ heqL
          split at heq
          · injection heq with h2
            subst h2
            exact ⟨hcr, by dsimp only; omega, colBound_of_le _ (by dsimp only; omega)⟩
          · split at heq
            · exact Option.noConfusion heq
            · split at heq
              · split at heq
                · split at heq
                  · rename_i pchars heqP
                    split at heq
                    · exact Option.noConfusion heq
                    · injection heq with h2
                      subst h2
                      refine ⟨hcr, by dsimp only; omega, colBound_of_le _ ?_⟩
                      dsimp only
                      apply le_trans (backRun_skipBack_le _ _ _ _)
                      split <;> omega
                  · injection heq with h2
                    subst h2
                    refine ⟨hcr, by dsimp only; omega, colBound_of_le _ ?_⟩
                    dsimp only
                    split <;> omega
                · injection heq with h2
                  subst h2
                  refine ⟨hcr, by dsimp only; omega, colBound_of_le _ ?_⟩
                  dsimp only
                  apply le_trans (skipBackWhile_le _ _ _)
                  omega
              · injection heq with h2
                subst h2
                refine ⟨hcr, by dsimp only; omega, colBound_of_le _ ?_⟩
                dsimp only
                apply le_trans (backRun_skipBack_le _ _ _ _)
                omega
    · simp only [if_neg hc0] at heq
      split at heq
      · injection heq with h2
        subst h2
        exact ⟨hcr, hrow, hcolB⟩
      · rename_i chars heqL
        have hll := line_len_of_line _ _ _ heqL
        split at heq
        · injection heq with h2
          subst h2
          exact ⟨hcr, by dsimp only; omega, colBound_of_le _ (by dsimp only; omega)⟩
        · split at heq
          · exact Option.noConfusion heq
          · split at heq
            · split at heq
              · split at heq
                · rename_i pchars heqP
                  split at heq
                  · exact Option.noConfusion heq
                  · injection heq with h2
                    subst h2
                    refine ⟨hcr, by dsimp only; omega, colBound_of_le _ ?_⟩
                    dsimp only
                    apply le_trans (backRun_skipBack_le _ _ _ _)
                    split <;> omega
                · injection heq with h2
                  subst h2
                  refine ⟨hcr, by dsimp only; omega, colBound_of_le _ ?_⟩
                  dsimp only
                  split <;> omega
              · injection heq with h2
                subst h2
                refine ⟨hcr, by dsimp only; omega, colBound_of_le _ ?_⟩
                dsimp only
                apply le_trans (skipBackWhile_le _ _ _)
                omega
            · injection heq with h2
              subst h2
              refine ⟨hcr, by dsimp only; omega, colBound_of_le _ ?_⟩
              dsimp only
              apply le_trans (backRun_skipBack_le _ _ _ _)
              omega

theorem InvA_word_end_on_line (e : Editor) (r : Nat) (hcr : NoCR e.text)
    (hr : r < Buffer.line_count e.text) : InvA (e.word_end_on_line r) := by
  unfold Editor.word_end_on_line
  split
  · rename_i nchars heq
    have hll := line_len_of_line _ _ _ heq
    dsimp only
    split
    · rename_i hc1
      refine ⟨hcr, by dsimp only; omega, colBound_of_le _ ?_⟩
      dsimp only
      have hend := endOfRun_lt_length
        (char_class (nchars.getD (skipWhile (fun c => c.isWhitespace) nchars 0) ' '))
        nchars (skipWhile (fun c => c.isWhitespace) nchars 0) hc1
      omega
    · exact ⟨hcr, by dsimp only; omega, colBound_of_le _ (by dsimp only; omega)⟩
  · exact ⟨hcr, by dsimp only; omega, colBound_of_le _ (by dsimp only; omega)⟩

theorem InvA_move_word_end (e : Editor) (h : InvA e) : InvA e.move_word_end := by
  obtain ⟨hcr, hrow, hcol⟩ := h
  have hmx := max_row_lt_count e
  unfold Editor.move_word_end
  dsimp only
  split
  · exact ⟨hcr, hrow, hcol⟩
  · rename_i chars heq
    have hll := line_len_of_line _ _ _ heq
    split
    · split
      · exact InvA_word_end_on_line e _ hcr (by omega)
      · exact ⟨hcr, hrow, hcol⟩
    · split
      · rename_i hc1
        refine ⟨hcr, hrow, colBound_of_le _ ?_⟩
        dsimp only
        have hend := endOfRun_lt_length
          (char_class (chars.getD
            (skipWhile (fun c => c.isWhitespace) chars (e.cursor_col + 1)) ' '))
          chars (skipWhile (fun c => c.isWhitespace) chars (e.cursor_col + 1)) hc1
        omega
      · split
        · exact InvA_word_end_on_line e _ hcr (by omega)
        · exact ⟨hcr, hrow, colBound_of_le _ (by dsimp only; omega)⟩

theorem InvA_scroll_half_page_down (e : Editor) (vh : Nat) (h : InvA e) :
    InvA (e.scroll_half_page_down vh) := by
  obtain ⟨hcr, hrow, hcol⟩ := h
  have hmx := max_row_lt_count e
  unfold Editor.scroll_half_page_down
  exact InvA_clamp _ hcr (by dsimp only; omega)

theorem InvA_scroll_half_page_up (e : Editor) (vh : Nat) (h : InvA e) :
    InvA (e.scroll_half_page_up vh) := by
  obtain ⟨hcr, hrow, hcol⟩ := h
  unfold Editor.scroll_half_page_up
  exact InvA_clamp _ hcr (by dsimp only; omega)

theorem InvA_enter_insert_mode (e : Editor) (h : InvA e) :
    InvA e.enter_insert_mode := by
  obtain ⟨hcr, hrow, hcol⟩ := h
  unfold colBound at hcol
  unfold Editor.enter_insert_mode
  refine ⟨hcr, hrow, ?_⟩
  unfold colBound
  dsimp only
  rw [if_pos rfl]
  omega

theorem InvA_enter_insert_mode_append (e : Editor) (hm : e.mode ≠ Mode.insert)
    (h : InvA e) : InvA e.enter_insert_mode_append := by
  obtain ⟨hcr, hrow, hcol⟩ := h
  unfold colBound at hcol
  rw [if_neg hm] at hcol
  unfold Editor.enter_insert_mode_append
  dsimp only
  split
  · refine ⟨hcr, hrow, ?_⟩
    unfold colBound
    dsimp only
    rw [if_pos rfl]
    omega
  · refine ⟨hcr, hrow, ?_⟩
    unfold colBound
    dsimp only
    rw [if_pos rfl]
    omega

theorem InvA_exit_insert_mode (e : Editor) (h : InvA e) :
    InvA e.exit_insert_mode := by
  obtain ⟨hcr, hrow, hcol⟩ := h
  unfold Editor.exit_insert_mode
  dsimp only
  split
  · exact InvA_clamp _ hcr hrow
  · exact InvA_clamp _ hcr hrow

theorem InvA_open_below (e : Editor) (h : InvA e) :
    InvA e.enter_insert_mode_open_below := by
  obtain ⟨hcr, hrow, hcol⟩ := h
  have hc : Buffer.line_count e.text = (splitOnNl e.text).length := rfl
  have hlen := line_len_eq_getD e.text e.cursor_row hrow hcr
  have hlines := insert_newline_lines e.text e.cursor_row
    (Buffer.line_len e.text e.cursor_row) hrow (by omega)
  have hcount : Buffer.line_count
      (Buffer.insert_newline e.text e.cursor_row (Buffer.line_len e.text e.cursor_row)) =
      Buffer.line_count e.text + 1 := by
    unfold Buffer.line_count
    rw [hlines]
    simp only [List.length_append, List.length_cons, List.length_take,
      List.length_drop]
    omega
  unfold Editor.enter_insert_mode_open_below
  refine ⟨?_, ?_, ?_⟩
  · exact NoCR_insertAt _ _ '\n' (by decide) hcr
  · dsimp only
    omega
  · unfold colBound
    dsimp only
    omega

theorem InvA_open_above (e : Editor) (h : InvA e) :
    InvA e.enter_insert_mode_open_above := by
  obtain ⟨hcr, hrow, hcol⟩ := h
  have hc : Buffer.line_count e.text = (splitOnNl e.text).length := rfl
  have hlines := insert_newline_lines e.text e.cursor_row 0 hrow (by omega)
  have hcount : Buffer.line_count (Buffer.insert_newline e.text e.cursor_row 0) =
      Buffer.line_count e.text + 1 := by
    unfold Buffer.line_count
    rw [hlines]
    simp only [List.length_append, List.length_cons, List.length_take,
      List.length_drop]
    omega
  unfold Editor.enter_insert_mode_open_above
  refine ⟨?_, ?_, ?_⟩
  · exact NoCR_insertAt _ _ '\n' (by decide) hcr
  · dsimp only
    omega
  · unfold colBound
    dsimp only
    omega

theorem InvA_insert_char (e : Editor) (ch : Char) (hm : e.mode = Mode.insert)
    (hn : ch ≠ '\n') (hr : ch ≠ '\r') (h : InvA e) : InvA (e.insert_char ch) := by
  obtain ⟨hcr, hrow, hcol⟩ := h
  unfold colBound at hcol
  rw [if_pos hm] at hcol
  have hlen := line_len_eq_getD e.text e.cursor_row hrow hcr
  have hcol' : e.cursor_col ≤ ((splitOnNl e.text).getD e.cursor_row []).length := by
    omega
  have hlines := insert_char_lines e.text e.cursor_row e.cursor_col ch hrow hcol' hn
  have hcr' : NoCR (Buffer.insert_char e.text e.cursor_row e.cursor_col ch) :=
    NoCR_insertAt _ _ _ hr hcr
  have hrow' : e.cursor_row <
      Buffer.line_count (Buffer.insert_char e.text e.cursor_row e.cursor_col ch) := by
    unfold Buffer.line_count
    rw [hlines, List.length_set]
    exact hrow
  unfold Editor.insert_char
  refine ⟨hcr', hrow', ?_⟩
  unfold colBound
  dsimp only
  rw [if_pos hm]
  have hlen' := line_len_eq_getD _ e.cursor_row hrow' hcr'
  rw [hlen', hlines, getD_set_self _ _ _ hrow,
    insertAt_length _ _ _ (by omega)]
  omega

theorem InvA_insert_newline (e : Editor) (h : InvA e) : InvA e.insert_newline := by
  obtain ⟨hcr, hrow, hcol⟩ := h
  unfold colBound at hcol
  have hc : Buffer.line_count e.text = (splitOnNl e.text).length := rfl
  have hlen := line_len_eq_getD e.text e.cursor_row hrow hcr
  have hlines := insert_newline_lines e.text e.cursor_row e.cursor_col hrow (by omega)
  have hcount : Buffer.line_count
      (Buffer.insert_newline e.text e.cursor_row e.cursor_col) =
      Buffer.line_count e.text + 1 := by
    unfold Buffer.line_count
    rw [hlines]
    simp only [List.length_append, List.length_cons, List.length_take,
      List.length_drop]
    omega
  unfold Editor.insert_newline
  refine ⟨?_, ?_, ?_⟩
  · exact NoCR_insertAt _ _ '\n' (by decide) hcr
  · dsimp only
    omega
  · unfold colBound
    dsimp only
    omega

theorem InvA_delete_char_back (e : Editor) (hm : e.mode = Mode.insert)
    (h : InvA e) : stepOK e.delete_char_back := by
  obtain ⟨hcr, hrow, hcol⟩ := h
  unfold colBound at hcol
  rw [if_pos hm] at hcol
  have hc : Buffer.line_count e.text = (splitOnNl e.text).length := rfl
  have hlen := line_len_eq_getD e.text e.cursor_row hrow hcr
  unfold Editor.delete_char_back Buffer.delete_char_back
  by_cases hc0 : e.cursor_col = 0
  · rw [if_pos hc0]
    by_cases hr0 : e.cursor_row = 0
    · rw [if_pos hr0]
      refine stepOK_some _ ⟨hcr, ?_, ?_⟩
      · exact line_count_pos e.text
      · unfold colBound
        dsimp only
        omega
    · rw [if_neg hr0]
      dsimp only
      have hlc : 1 ≤ line_to_char e.text e.cursor_row := by
        have := le_line_to_char e.text e.cursor_row hrow
        omega
      rw [show sub? (line_to_char e.text e.cursor_row) 1 =
          some (line_to_char e.text e.cursor_row - 1) from by
        unfold sub?; rw [if_pos hlc]]
      dsimp only
      rw [show line_to_char e.text e.cursor_row - 1 + 1 =
          line_to_char e.text e.cursor_row from by omega]
      have hmerge := merge_lines e.text e.cursor_row (by omega) hrow
      have hcr' := NoCR_removeRange e.text (line_to_char e.text e.cursor_row - 1)
        (line_to_char e.text e.cursor_row) hcr
      have hcount : Buffer.line_count (removeRange e.text
          (line_to_char e.text e.cursor_row - 1) (line_to_char e.text e.cursor_row)) =
          Buffer.line_count e.text - 1 := by
        unfold Buffer.line_count
        rw [hmerge]
        simp only [List.length_append, List.length_cons, List.length_take,
          List.length_drop]
        omega
      refine stepOK_some _ ⟨hcr', by dsimp only; omega, ?_⟩
      unfold colBound
      dsimp only
      rw [if_pos hm]
      have hlen' := line_len_eq_getD (removeRange e.text
          (line_to_char e.text e.cursor_row - 1) (line_to_char e.text e.cursor_row))
        (e.cursor_row - 1) (by omega) hcr'
      rw [hlen', hmerge, getD_take_append _ _ _ _ (by omega)]
      have hlenp := line_len_eq_getD e.text (e.cursor_row - 1) (by omega) hcr
      simp only [List.length_append]
      omega
  · rw [if_neg hc0]
    rw [show line_to_char e.text e.cursor_row + e.cursor_col - 1 =
        line_to_char e.text e.cursor_row + (e.cursor_col - 1) from by omega]
    have hsurg := removeRange_lines e.text e.cursor_row (e.cursor_col - 1)
      e.cursor_col hrow (by omega) (by omega)
    have hcr' := NoCR_removeRange e.text
      (line_to_char e.text e.cursor_row + (e.cursor_col - 1))
      (line_to_char e.text e.cursor_row + e.cursor_col) hcr
    have hcount : Buffer.line_count (removeRange e.text
        (line_to_char e.text e.cursor_row + (e.cursor_col - 1))
        (line_to_char e.text e.cursor_row + e.cursor_col)) =
        Buffer.line_count e.text := by
      unfold Buffer.line_count
      rw [hsurg, List.length_set]
    refine stepOK_some _ ⟨hcr', by dsimp only; omega, ?_⟩
    unfold colBound
    dsimp only
    rw [if_pos hm]
    have hlen' := line_len_eq_getD (removeRange e.text
        (line_to_char e.text e.cursor_row + (e.cursor_col - 1))
        (line_to_char e.text e.cursor_row + e.cursor_col))
      e.cursor_row (by omega) hcr'
    rw [hlen', hsurg, getD_set_self _ _ _ hrow]
    simp only [List.length_append, List.length_take, List.length_drop]
    omega

theorem InvA_delete_line (e : Editor) (hcr : NoCR e.text) : InvA e.delete_line := by
  have hcr' : NoCR (Buffer.delete_line e.text e.cursor_row) :=
    NoCR_delete_line _ _ hcr
  have hmx : Editor.max_row { e with text := Buffer.delete_line e.text e.cursor_row } <
      Buffer.line_count (Buffer.delete_line e.text e.cursor_row) :=
    max_row_lt_count _
  unfold Editor.delete_line
  dsimp only
  split
  · exact InvA_clamp _ hcr' hmx
  · rename_i hgt
    exact InvA_clamp _ hcr' (by dsimp only at hgt ⊢; omega)

theorem InvA_delete_char_at_cursor (e : Editor) (h : InvA e) :
    InvA e.delete_char_at_cursor := by
  obtain ⟨hcr, hrow, hcol⟩ := h
  unfold Editor.delete_char_at_cursor
  split
  · exact ⟨hcr, hrow, hcol⟩
  · have hcount := count_delete_char_at e.text e.cursor_row e.cursor_col hrow hcr
    exact InvA_clamp _ (NoCR_delete_char_at _ _ _ hcr) (by dsimp only; omega)

theorem InvA_delete_to_end_of_line (e : Editor) (h : InvA e) :
    stepOK e.delete_to_end_of_line := by
  obtain ⟨hcr, hrow, hcol⟩ := h
  unfold colBound at hcol
  unfold Editor.delete_to_end_of_line
  dsimp only
  split
  · exact stepOK_some _ ⟨hcr, hrow, colBound_of_le _ (by omega)⟩
  · rename_i hll0
    have hlen := line_len_eq_getD e.text e.cursor_row hrow hcr
    rw [show sub? (Buffer.line_len e.text e.cursor_row) e.cursor_col =
        some (Buffer.line_len e.text e.cursor_row - e.cursor_col) from by
      unfold sub?; rw [if_pos (by omega)]]
    have happly := applyN_delete_char_at
      (Buffer.line_len e.text e.cursor_row - e.cursor_col) e.text e.cursor_row
      e.cursor_col hrow hcr (by omega)
    exact stepOK_some _ (InvA_clamp _
      (NoCR_applyN_delete_char_at _ _ _ _ hcr)
      (by dsimp only; unfold Buffer.line_count; rw [happly, List.length_set];
          exact hrow))

theorem InvA_delete_word (e : Editor) (h : InvA e) : InvA e.delete_word := by
  obtain ⟨hcr, hrow, hcol⟩ := h
  have hline := line_eq_getD e.text e.cursor_row hrow hcr
  have hlen := line_len_eq_getD e.text e.cursor_row hrow hcr
  by_cases hcl : e.cursor_col < ((splitOnNl e.text).getD e.cursor_row []).length
  · rw [delete_word_eq e _ hline hcl]
    have hP := deleteWordExtent_le ((splitOnNl e.text).getD e.cursor_row [])
      e.cursor_col (by omega)
    have hcP := le_deleteWordExtent ((splitOnNl e.text).getD e.cursor_row [])
      e.cursor_col
    have happly := applyN_delete_char_at
      (deleteWordExtent ((splitOnNl e.text).getD e.cursor_row []) e.cursor_col -
        e.cursor_col) e.text e.cursor_row e.cursor_col hrow hcr (by omega)
    exact InvA_clamp _ (NoCR_applyN_delete_char_at _ _ _ _ hcr)
      (by dsimp only; unfold Buffer.line_count; rw [happly, List.length_set];
          exact hrow)
  · rw [delete_word_noop e _ hline (by omega)]
    exact ⟨hcr, hrow, hcol⟩

theorem InvA_goto_line_start (e : Editor) (h : InvA e) : InvA e.goto_line_start := by
  obtain ⟨hcr, hrow, hcol⟩ := h
  unfold Editor.goto_line_start
  exact ⟨hcr, hrow, colBound_of_le _ (by dsimp only; omega)⟩

theorem InvA_goto_line_end (e : Editor) (h : InvA e) : InvA e.goto_line_end := by
  obtain ⟨hcr, hrow, hcol⟩ := h
  unfold Editor.goto_line_end
  dsimp only
  split
  · exact ⟨hcr, hrow, colBound_of_le _ (by dsimp only; omega)⟩
  · exact ⟨hcr, hrow, colBound_of_le _ (by dsimp only; omega)⟩

theorem InvA_goto_first_non_blank (e : Editor) (h : InvA e) :
    InvA e.goto_first_non_blank := by
  obtain ⟨hcr, hrow, hcol⟩ := h
  unfold Editor.goto_first_non_blank
  dsimp only
  split
  · rename_i chars heq
    have hll := line_len_of_line _ _ _ heq
    refine ⟨hcr, hrow, colBound_of_le _ ?_⟩
    dsimp only
    split <;> omega
  · exact ⟨hcr, hrow, colBound_of_le _ (by dsimp only; omega)⟩

theorem InvA_quit (e : Editor) (h : InvA e) : InvA e.quit := by
  obtain ⟨hcr, hrow, hcol⟩ := h
  unfold Editor.quit
  refine ⟨hcr, hrow, ?_⟩
  unfold colBound at *
  dsimp only
  exact hcol

theorem InvA_exit_command_mode (e : Editor) (hm : e.mode ≠ Mode.insert)
    (h : InvA e) : InvA e.exit_command_mode := by
  obtain ⟨hcr, hrow, hcol⟩ := h
  unfold colBound at hcol
  rw [if_neg hm] at hcol
  unfold Editor.exit_command_mode
  refine ⟨hcr, hrow, ?_⟩
  unfold colBound
  dsimp only
  rw [if_neg (by decide : ¬ Mode.normal = Mode.insert)]
  exact hcol

theorem InvA_enter_command_mode (e : Editor) (hm : e.mode ≠ Mode.insert)
    (h : InvA e) : InvA e.enter_command_mode := by
  obtain ⟨hcr, hrow, hcol⟩ := h
  unfold colBound at hcol
  rw [if_neg hm] at hcol
  unfold Editor.enter_command_mode
  refine ⟨hcr, hrow, ?_⟩
  unfold colBound
  dsimp only
  rw [if_neg (by decide : ¬ Mode.command = Mode.insert)]
  exact hcol

theorem InvA_command_push (e : Editor) (ch : Char) (h : InvA e) :
    InvA (e.command_push ch) := by
  obtain ⟨hcr, hrow, hcol⟩ := h
  unfold Editor.command_push
  refine ⟨hcr, hrow, ?_⟩
  unfold colBound at *
  dsimp only
  exact hcol

theorem InvA_command_pop (e : Editor) (hm : e.mode ≠ Mode.insert) (h : InvA e) :
    InvA e.command_pop := by
  obtain ⟨hcr, hrow, hcol⟩ := h
  have h' : InvA { e with command_buffer := e.command_buffer.dropRight 1 } :=
    ⟨hcr, hrow, by unfold colBound at *; dsimp only; exact hcol⟩
  unfold Editor.command_pop
  dsimp only
  split
  · exact InvA_exit_command_mode _ hm h'
  · exact h'

theorem InvA_execute_command (e : Editor) (wOk : Bool) (hm : e.mode ≠ Mode.insert)
    (h : InvA e) : InvA (e.execute_command wOk).1 := by
  have hex : InvA e.exit_command_mode := InvA_exit_command_mode e hm h
  have hcr' : NoCR e.exit_command_mode.text := hex.1
  have hrow' := hex.2.1
  have hmx := max_row_lt_count e.exit_command_mode
  rw [execute_command_eq]
  split
  · rename_i n heq
    dsimp only
    refine InvA_clamp _ hcr' ?_
    dsimp only
    split <;> omega
  · split
    · exact hex
    · split
      · exact InvA_quit _ hex
      · split
        · split
          · exact InvA_quit _ hex
          · exact hex
        · split
          · exact hex
          · split
            · exact InvA_quit _ hex
            · split
              · exact InvA_quit _ hex
              · exact hex

set_option maxHeartbeats 2000000 in
theorem stepSafe_handle_normal_key (e : Editor) (k : KeyEvent) (vh : Nat)
    (hvh : 1 ≤ vh) (hm : e.mode = Mode.normal)
    (hscroll : e.scroll_offset ≤ e.cursor_row) (h : InvA e) :
    stepSafe k (e.handle_normal_key k vh) := by
  have hmn : e.mode ≠ Mode.insert := by rw [hm]; decide
  have hd : InvA { e with pending_d := false } :=
    InvA_congr _ _ rfl rfl rfl rfl h
  have hg : InvA { e with pending_g := false } :=
    InvA_congr _ _ rfl rfl rfl rfl h
  have hpg : InvA { e with pending_g := true } :=
    InvA_congr _ _ rfl rfl rfl rfl h
  have hpd : InvA { e with pending_d := true } :=
    InvA_congr _ _ rfl rfl rfl rfl h
  obtain ⟨code, ctrl⟩ := k
  unfold Editor.handle_normal_key
  by_cases hpd2 : e.pending_d
  · rw [if_pos hpd2]
    dsimp only
    cases code <;> (try dsimp only)
    · split
      · exact stepSafe_some _ _ (InvA_delete_line _ hd.1)
      · split
        · exact stepSafe_some _ _ (InvA_delete_word _ hd)
        · exact stepSafe_some _ _ hd
    all_goals exact stepSafe_some _ _ hd
  · rw [if_neg hpd2]
    by_cases hpg2 : e.pending_g
    · rw [if_pos hpg2]
      dsimp only
      split
      · exact stepSafe_some _ _ (InvA_goto_top _ hg)
      · exact stepSafe_some _ _ hg
    · rw [if_neg hpg2]
      cases code <;> (try dsimp only)
      rotate_left
      · exact stepSafe_some _ _ h
      · exact stepSafe_some _ _ h
      · exact stepSafe_some _ _ h
      · exact stepSafe_some _ _ (InvA_move_left _ h)
      · exact stepSafe_some _ _ (InvA_move_right _ h)
      · exact stepSafe_some _ _ (InvA_move_up _ h)
      · exact stepSafe_some _ _ (InvA_move_down _ h)
      · exact stepSafe_some _ _ h
      · -- character dispatch: walk the if chain
        rename_i c
        by_cases hc1 : c = ':'
        · rw [if_pos hc1]
          exact stepSafe_some _ _ (InvA_enter_command_mode _ hmn h)
        · rw [if_neg hc1]
          by_cases hc2 : c = 'i'
          · rw [if_pos hc2]
            exact stepSafe_some _ _ (InvA_enter_insert_mode _ h)
          · rw [if_neg hc2]
            by_cases hc3 : c = 'a'
            · rw [if_pos hc3]
              exact stepSafe_some _ _ (InvA_enter_insert_mode_append _ hmn h)
            · rw [if_neg hc3]
              by_cases hc4 : c = 'o'
              · rw [if_pos hc4]
                exact stepSafe_some _ _ (InvA_open_below _ h)
              · rw [if_neg hc4]
                by_cases hc5 : c = 'O'
                · rw [if_pos hc5]
                  exact stepSafe_some _ _ (InvA_open_above _ h)
                · rw [if_neg hc5]
                  by_cases hc6 : c = 'h'
                  · rw [if_pos hc6]
                    exact stepSafe_some _ _ (InvA_move_left _ h)
                  · rw [if_neg hc6]
                    by_cases hc7 : c = 'j'
                    · rw [if_pos hc7]
                      exact stepSafe_some _ _ (InvA_move_down _ h)
                    · rw [if_neg hc7]
                      by_cases hc8 : c = 'k'
                      · rw [if_pos hc8]
                        exact stepSafe_some _ _ (InvA_move_up _ h)
                      · rw [if_neg hc8]
                        by_cases hc9 : c = 'l'
                        · rw [if_pos hc9]
                          exact stepSafe_some _ _ (InvA_move_right _ h)
                        · rw [if_neg hc9]
                          by_cases hc10 : c = 'g'
                          · rw [if_pos hc10]
                            exact stepSafe_some _ _ hpg
                          · rw [if_neg hc10]
                            by_cases hc11 : c = 'G'
                            · rw [if_pos hc11]
                              exact stepSafe_some _ _ (InvA_goto_bottom _ h)
                            · rw [if_neg hc11]
                              by_cases hc12 : c = 'H'
                              · rw [if_pos hc12]
                                exact stepSafe_some _ _ (InvA_goto_viewport_top _ hscroll h)
                              · rw [if_neg hc12]
                                by_cases hc13 : c = 'M'
                                · rw [if_pos hc13]
                                  exact stepSafe_of_stepOK _ _ (InvA_goto_viewport_middle e vh hvh hscroll h)
                                · rw [if_neg hc13]
                                  by_cases hc14 : c = 'L'
                                  · rw [if_pos hc14]
                                    exact stepSafe_of_stepOK _ _ (InvA_goto_viewport_bottom e vh hvh h)
                                  · rw [if_neg hc14]
                                    by_cases hc15 : c = 'd'
                                    · rw [if_pos hc15]
                                      by_cases hct15 : ctrl = true
                                      · rw [if_pos hct15]
                                        exact stepSafe_some _ _ (InvA_scroll_half_page_down _ vh h)
                                      · rw [if_neg hct15]
                                        exact stepSafe_some _ _ hpd
                                    · rw [if_neg hc15]
                                      by_cases hc16 : c = 'u'
                                      · rw [if_pos hc16]
                                        by_cases hct16 : ctrl = true
                                        · rw [if_pos hct16]
                                          exact stepSafe_some _ _ (InvA_scroll_half_page_up _ vh h)
                                        · rw [if_neg hct16]
                                          exact stepSafe_some _ _ h
                                      · rw [if_neg hc16]
                                        by_cases hc17 : c = 'w'
                                        · rw [if_pos hc17]
                                          exact stepSafe_some _ _ (InvA_move_word_forward _ h)
                                        · rw [if_neg hc17]
                                          by_cases hc18 : c = 'b'
                                          · rw [if_pos hc18]
                                            exact ⟨fun e' he => InvA_move_word_backward _ h e' he,
            fun _ => by rw [hc18]⟩
                                          · rw [if_neg hc18]
                                            by_cases hc19 : c = 'e'
                                            · rw [if_pos hc19]
                                              exact stepSafe_some _ _ (InvA_move_word_end _ h)
                                            · rw [if_neg hc19]
                                              by_cases hc20 : c = '0'
                                              · rw [if_pos hc20]
                                                exact stepSafe_some _ _ (InvA_goto_line_start _ h)
                                              · rw [if_neg hc20]
                                                by_cases hc21 : c = '$'
                                                · rw [if_pos hc21]
                                                  exact stepSafe_some _ _ (InvA_goto_line_end _ h)
                                                · rw [if_neg hc21]
                                                  by_cases hc22 : c = '^'
                                                  · rw [if_pos hc22]
                                                    exact stepSafe_some _ _ (InvA_goto_first_non_blank _ h)
                                                  · rw [if_neg hc22]
                                                    by_cases hc23 : c = 'D'
                                                    · rw [if_pos hc23]
                                                      exact stepSafe_of_stepOK _ _ (InvA_delete_to_end_of_line e h)
                                                    · rw [if_neg hc23]
                                                      by_cases hc24 : c = 'x'
                                                      · rw [if_pos hc24]
                                                        exact stepSafe_some _ _ (InvA_delete_char_at_cursor _ h)
                                                      · rw [if_neg hc24]
                                                        exact stepSafe_some _ _ h

theorem stepSafe_handle_insert_key (e : Editor) (k : KeyEvent)
    (hm : e.mode = Mode.insert)
    (hk : ∀ c, k.code = KeyCode.char c → c ≠ '\n' ∧ c ≠ '\r')
    (h : InvA e) : stepSafe k (e.handle_insert_key k) := by
  unfold Editor.handle_insert_key
  split
  · exact stepSafe_some _ _ (InvA_exit_insert_mode _ h)
  · exact stepSafe_some _ _ (InvA_insert_newline _ h)
  · exact stepSafe_of_stepOK _ _ (InvA_delete_char_back e hm h)
  · exact stepSafe_some _ _ (InvA_move_left _ h)
  · exact stepSafe_some _ _ (InvA_move_down _ h)
  · exact stepSafe_some _ _ (InvA_move_up _ h)
  · exact stepSafe_some _ _ (InvA_move_right _ h)
  · rename_i c heq
    obtain ⟨hn, hr⟩ := hk c heq
    exact stepSafe_some _ _ (InvA_insert_char e c hm hn hr h)
  · exact stepSafe_some _ _ h

theorem InvA_handle_command_key (e : Editor) (k : KeyEvent) (wOk : Bool)
    (hm : e.mode ≠ Mode.insert) (h : InvA e) :
    InvA (e.handle_command_key k wOk) := by
  unfold Editor.handle_command_key
  split
  · exact InvA_exit_command_mode _ hm h
  · exact InvA_execute_command _ _ hm h
  · exact InvA_command_pop _ hm h
  · exact InvA_command_push _ _ h
  · exact h

theorem stepSafe_handle_key (e : Editor) (k : KeyEvent) (wOk : Bool) (vh : Nat)
    (hvh : 1 ≤ vh) (hscroll : e.scroll_offset ≤ e.cursor_row)
    (hk : ∀ c, k.code = KeyCode.char c → c ≠ '\n' ∧ c ≠ '\r')
    (h : InvA e) : stepSafe k (e.handle_key k wOk vh) := by
  unfold Editor.handle_key
  split
  · rename_i hmode
    exact stepSafe_handle_normal_key e k vh hvh hmode hscroll h
  · rename_i hmode
    exact stepSafe_handle_insert_key e k hmode hk h
  · rename_i hmode
    exact stepSafe_some _ _ (InvA_handle_command_key e k wOk (by rw [hmode]; decide) h)

/-- For `viewport_height ≥ 1`, `adjust_scroll` always succeeds, touches
only `scroll_offset`, and leaves the scroll offset at or below the
cursor row. -/
theorem adjust_scroll_total (e : Editor) (vh : Nat) (hvh : 1 ≤ vh) :
    ∃ e1, e.adjust_scroll vh = some e1 ∧
      e1.text = e.text ∧ e1.cursor_row = e.cursor_row ∧
      e1.cursor_col = e.cursor_col ∧ e1.mode = e.mode ∧
      e1.scroll_offset ≤ e1.cursor_row := by
  unfold Editor.adjust_scroll sub?
  by_cases h1 : e.cursor_row < e.scroll_offset
  · rw [if_pos h1]
    simp only
    rw [if_neg (by omega : ¬ e.cursor_row ≥ e.cursor_row + vh)]
    exact ⟨_, rfl, rfl, rfl, rfl, rfl, le_refl _⟩
  · rw [if_neg h1]
    by_cases h2 : e.cursor_row ≥ e.scroll_offset + vh
    · rw [if_pos h2]
      rw [if_pos (by omega : vh ≤ e.cursor_row)]
      simp only
      exact ⟨_, rfl, rfl, rfl, rfl, rfl, by dsimp only; omega⟩
    · rw [if_neg h2]
      exact ⟨_, rfl, rfl, rfl, rfl, rfl, by omega⟩

/-- C3 is refuted as stated: from a state satisfying all the claimed
invariants (a one-line buffer `"ab"` with no trailing newline, Insert
mode, cursor at the one-past-end column), one processing step
— `adjust_scroll` followed by `handle_key` on Enter — yields a state
whose `cursor_row` exceeds `max_row = max(line_count - 2, 0)`. -/
theorem claim_C3_cx :
    (({ text := "ab".toList, cursor_row := 0, cursor_col := 2, scroll_offset := 0,
        mode := Mode.insert, running := true, pending_g := false,
        pending_d := false, command_buffer := "" } : Editor).cursor_row ≤
      ({ text := "ab".toList, cursor_row := 0, cursor_col := 2, scroll_offset := 0,
         mode := Mode.insert, running := true, pending_g := false,
         pending_d := false, command_buffer := "" } : Editor).max_row) ∧
    (({ text := "ab".toList, cursor_row := 0, cursor_col := 2, scroll_offset := 0,
        mode := Mode.insert, running := true, pending_g := false,
        pending_d := false, command_buffer := "" } : Editor).cursor_col ≤
      Buffer.line_len "ab".toList 0) ∧
    ∃ e' : Editor,
      ((({ text := "ab".toList, cursor_row := 0, cursor_col := 2, scroll_offset := 0,
           mode := Mode.insert, running := true, pending_g := false,
           pending_d := false, command_buffer := "" } : Editor).adjust_scroll 5).bind
        (fun e1 => e1.handle_key { code := KeyCode.enter, ctrl := false } true 5)) =
          some e' ∧
      e'.max_row < e'.cursor_row := by
  refine ⟨by decide, by decide,
    ⟨{ text := "ab\n".toList, cursor_row := 1, cursor_col := 0, scroll_offset := 0,
       mode := Mode.insert, running := true, pending_g := false,
       pending_d := false, command_buffer := "" }, by decide, by decide⟩⟩

/-- C3 (amended): for every state satisfying the cursor invariant
`InvA` — CR-free text, `cursor_row < line_count`, and the per-mode
column bound (`col ≤ line_len` in Insert mode, `col ≤ max(line_len - 1,
0)` otherwise) — and every key event whose character payload is not a
line terminator, one processing step with `viewport_height ≥ 1`:
`adjust_scroll` succeeds; `handle_key` preserves `InvA` whenever it
completes; and it can fail to complete (the out-of-bounds panic of the
word-backward motion on an empty previous line) only on the `b` key. -/
theorem claim_C3_amended (e : Editor) (k : KeyEvent) (wOk : Bool) (vh : Nat)
    (hvh : 1 ≤ vh)
    (hk : ∀ c, k.code = KeyCode.char c → c ≠ '\n' ∧ c ≠ '\r')
    (h : InvA e) :
    ∃ e1, e.adjust_scroll vh = some e1 ∧
      (∀ e', e1.handle_key k wOk vh = some e' → InvA e') ∧
      (e1.handle_key k wOk vh = none → k.code = KeyCode.char 'b') := by
  obtain ⟨e1, heq1, ht, hr, hc, hmode, hs⟩ := adjust_scroll_total e vh hvh
  have h1 : InvA e1 := InvA_congr e e1 ht hr hc hmode h
  obtain ⟨hsome, hnone⟩ := stepSafe_handle_key e1 k wOk vh hvh hs hk h1
  exact ⟨e1, heq1, hsome, hnone⟩

/-- C3 witness: a full processing step (`adjust_scroll` then `j`) on
`"hello\nworld\n"` — `adjust_scroll` succeeds and any completed
`handle_key` result satisfies the amended invariant. -/
theorem claim_C3_amended_witness :
    ∃ e1, (Editor.new "hello\nworld\n".toList).adjust_scroll 3 = some e1 ∧
      (∀ e', e1.handle_key { code := KeyCode.char 'j', ctrl := false } true 3 =
          some e' → InvA e') ∧
      (e1.handle_key { code := KeyCode.char 'j', ctrl := false } true 3 = none →
        ({ code := KeyCode.char 'j', ctrl := false } : KeyEvent).code =
          KeyCode.char 'b') :=
  claim_C3_amended (Editor.new "hello\nworld\n".toList)
    { code := KeyCode.char 'j', ctrl := false } true 3 (by decide)
    (fun c hc => by
      have hc' : KeyCode.char 'j' = KeyCode.char c := hc
      injection hc' with hj
      subst hj
      exact ⟨by decide, by decide⟩)
    (by
      refine ⟨?_, by decide, ?_⟩
      · unfold NoCR
        decide
      · unfold colBound
        decide)

end Dvim
